import Mathlib

/-!
# BitBLT2 — shallow embedding and verification

This file embeds the BitBLT2 sources (`src/bitblt.js`, the JIT compiler
module exporting `generateBitBltFunction` / `jitBitBlt` / `jitBitBltAligned`,
and `src/jit_executor.js`) into Lean and settles the specification claims
against them.

Modelling conventions, fixed once for the whole file:

* JavaScript numbers used as coordinates and dimensions are modelled as `Int`.
  `Math.floor(a / 32)` is `Int.fdiv a 32`, the JS remainder `a % 32` (sign of
  the dividend) is `Int.tmod a 32`, and a JS 32-bit shift count is reduced
  modulo 32 (`ToUint32` followed by `& 31`), which for a count `b : Int`
  equals `(b.emod 32).toNat`.
* A bitmap's `data` array holds 32-bit patterns, modelled as `Nat` values
  `< 2^32` (`Bitmap.WF`).  JS bitwise operators coincide with `&&&`, `|||`,
  `^^^` on such patterns; `w & ~(1 << b)` is `w &&& (mask32 ^^^ (1 <<< b))`.
* JS array semantics for `data[i]`:
  - a read at a negative or past-the-end index yields `undefined`, which all
    bitwise contexts coerce to `0` — modelled by `readWord`;
  - a write at `0 ≤ i < length` updates in place; a write at `i ≥ length`
    extends the array to length `i + 1`, the intermediate holes reading back
    as `undefined` (0 in bitwise contexts) — modelled by `writeWord` with
    `0`-filled padding; a write at a negative index creates a non-index
    property, invisible to every later index read of this development —
    modelled as a no-op.  (The sole JS behaviour this drops — re-reading the
    very same negative property later in the same call — is never exercised
    by any theorem or counterexample below.)
* `src === dst` (object identity) cannot be observed on Lean values; it is
  passed explicitly as a `same : Bool` argument, and every read of `src`
  inside a transfer goes through the current destination exactly when
  `same = true`, which is what physical aliasing does.  Theorems that set
  `same = true` always pass the same bitmap for both arguments.
* The transfer functions mutate only `dst`; the embedding threads the pair
  `(src, dst)` through each step so that "the source bitmap is unmodified"
  is a statement, not a convention.
* The generated loops `for (v = start; v !== end; v += step)` are modelled by
  the index list they traverse in the terminating cases
  (`(0, n, 1)` with `n ≥ 0`, and `(n - 1, -1, -1)`); for `n < 0` the forward
  JS loop does not terminate, so every theorem about these functions carries
  hypotheses that put the clipped sizes at `≥ 0`.
-/

/-- Index list `[0, 1, …, n-1]` of a JS loop `for (v = 0; v < n; v++)`. -/
def intRange (n : Int) : List Int :=
  (List.range n.toNat).map Nat.cast

/-- Index list `[a, a+1, …]` of length `n`, for loops starting below a bound. -/
def intsFrom (a : Int) (n : Nat) : List Int :=
  (List.range n).map (fun k => a + Nat.cast k)

/-- JS read `d[i]` in a bitwise context: `undefined` coerces to `0`. -/
def readWord (d : List Nat) (i : Int) : Nat :=
  if 0 ≤ i then d.getD i.toNat 0 else 0

/-- JS write `d[i] = v`: in-place update inside the array, extension with
`undefined` holes (reading as 0) past the end, and a non-index property
(invisible to index reads; modelled as a no-op) at a negative index. -/
def writeWord (d : List Nat) (i : Int) (v : Nat) : List Nat :=
  if 0 ≤ i then
    if i.toNat < d.length then d.set i.toNat v
    else d ++ List.replicate (i.toNat - d.length) 0 ++ [v]
  else d

/-- The 32-bit all-ones pattern `0xffffffff`. -/
def mask32 : Nat := 0xffffffff

/-- JS shift count: `ToUint32` then `& 31`, i.e. the Euclidean residue mod 32. -/
def jsShiftAmt (b : Int) : Nat := (b % 32).toNat

/-- Bitmap object of `createBitmap` in `src/bitblt.js`:
`{ width, height, intsPerRow, data }`. -/
structure Bitmap where
  width : Int
  height : Int
  intsPerRow : Int
  data : List Nat
deriving DecidableEq, Repr

/-- `createBitmap(width, height)`: `intsPerRow = Math.ceil(width / 32)`
(`= (width + 31) fdiv 32`), data zero-filled of length `height * intsPerRow`
(for a negative product JS `new Array` would throw; such bitmaps are outside
every claim). -/
def createBitmap (width height : Int) : Bitmap :=
  let intsPerRow := (width + 31).fdiv 32
  { width := width, height := height, intsPerRow := intsPerRow,
    data := List.replicate (height * intsPerRow).toNat 0 }

/-- Well-formedness every bitmap produced by `createBitmap` enjoys and every
operation preserves: nonnegative dimensions, the stride equation, the length
invariant, and 32-bit word patterns. -/
def Bitmap.WF (bm : Bitmap) : Prop :=
  0 ≤ bm.width ∧ 0 ≤ bm.height ∧ bm.intsPerRow = (bm.width + 31).fdiv 32 ∧
    bm.data.length = (bm.height * bm.intsPerRow).toNat ∧
    ∀ w ∈ bm.data, w < 2 ^ 32

instance (bm : Bitmap) : Decidable bm.WF := by
  unfold Bitmap.WF; exact inferInstance

/-- `setPixel(bitmap, x, y, value)` from `src/bitblt.js`. -/
def setPixel (bm : Bitmap) (x y : Int) (value : Nat) : Bitmap :=
  if x < 0 ∨ x ≥ bm.width ∨ y < 0 ∨ y ≥ bm.height then bm
  else
    let intIndex := y * bm.intsPerRow + x.fdiv 32
    let bitIndex := 31 - x.tmod 32
    let w := readWord bm.data intIndex
    let w' := if value = 1 then w ||| (1 <<< jsShiftAmt bitIndex)
              else w &&& (mask32 ^^^ (1 <<< jsShiftAmt bitIndex))
    { bm with data := writeWord bm.data intIndex w' }

/-- `getPixel(bitmap, x, y)` from `src/bitblt.js`. -/
def getPixel (bm : Bitmap) (x y : Int) : Nat :=
  if x < 0 ∨ x ≥ bm.width ∨ y < 0 ∨ y ≥ bm.height then 0
  else
    let intIndex := y * bm.intsPerRow + x.fdiv 32
    let bitIndex := 31 - x.tmod 32
    if readWord bm.data intIndex &&& (1 <<< jsShiftAmt bitIndex) ≠ 0 then 1 else 0

namespace BitBltOp

/-- `BitBltOp.COPY` -/
def COPY : Int := 0
/-- `BitBltOp.AND` -/
def AND : Int := 1
/-- `BitBltOp.OR` -/
def OR : Int := 2
/-- `BitBltOp.XOR` -/
def XOR : Int := 3

end BitBltOp

/-- The operator switch shared (textually identical up to operand names) by
`bitblt`, `bitbltAligned` and both generated-code templates: `AND`, `OR`,
`XOR`, with every other value falling through to the `COPY` default. -/
def opCombine (op : Int) (s d : Nat) : Nat :=
  if op = BitBltOp.AND then s &&& d
  else if op = BitBltOp.OR then s ||| d
  else if op = BitBltOp.XOR then s ^^^ d
  else s

/-- One iteration of the naive `bitblt` inner loop at offsets
`yx = (y, x)` inside the clipped rectangle: read through `getPixel`
(from the evolving destination when the buffers alias), combine, write back
through `setPixel`. -/
def bitbltStep (same : Bool) (src : Bitmap) (dstX dstY srcX srcY op : Int)
    (d : Bitmap) (yx : Int × Int) : Bitmap :=
  let srcBm := if same then d else src
  let srcPixel := getPixel srcBm (srcX + yx.2) (srcY + yx.1)
  let dstPixel := getPixel d (dstX + yx.2) (dstY + yx.1)
  setPixel d (dstX + yx.2) (dstY + yx.1) (opCombine op srcPixel dstPixel)

/-- Row-major traversal `(y, x)` for `y < ah`, `x < aw` of the naive loops. -/
def rowMajor (ah aw : Int) : List (Int × Int) :=
  (intRange ah).flatMap (fun j => (intRange aw).map (fun i => (j, i)))

/-- `bitblt(dst, dstX, dstY, width, height, src, srcX, srcY, op)` from
`src/bitblt.js`.  Returns the final `(src, dst)` pair; only the destination
component is ever written. -/
def bitblt (same : Bool) (dst : Bitmap) (dstX dstY width height : Int)
    (src : Bitmap) (srcX srcY : Int) (op : Int) : Bitmap × Bitmap :=
  if width ≤ 0 ∨ height ≤ 0 then (src, dst)
  else
    let srcMaxX := min (srcX + width) src.width
    let srcMaxY := min (srcY + height) src.height
    let dstMaxX := min (dstX + width) dst.width
    let dstMaxY := min (dstY + height) dst.height
    let actualWidth := min (srcMaxX - srcX) (dstMaxX - dstX)
    let actualHeight := min (srcMaxY - srcY) (dstMaxY - dstY)
    (rowMajor actualHeight actualWidth).foldl
      (fun st yx => (st.1, bitbltStep same st.1 dstX dstY srcX srcY op st.2 yx))
      (src, dst)

/-- Horizontal overlap test of `generateBitBltFunction`
(`sameBuffer && ((srcX < dstX && srcX + actualWidth > dstX) ||
(dstX < srcX && dstX + actualWidth > srcX))`). -/
def overlapH (same : Bool) (srcX dstX aw : Int) : Prop :=
  same = true ∧ ((srcX < dstX ∧ srcX + aw > dstX) ∨ (dstX < srcX ∧ dstX + aw > srcX))

instance (same : Bool) (srcX dstX aw : Int) : Decidable (overlapH same srcX dstX aw) := by
  unfold overlapH; exact inferInstance

/-- Vertical overlap test of `generateBitBltFunction` (rows, `actualHeight`). -/
def overlapV (same : Bool) (srcY dstY ah : Int) : Prop :=
  same = true ∧ ((srcY < dstY ∧ srcY + ah > dstY) ∨ (dstY < srcY ∧ dstY + ah > srcY))

instance (same : Bool) (srcY dstY ah : Int) : Decidable (overlapV same srcY dstY ah) := by
  unfold overlapV; exact inferInstance

/-- `(xStart, xEnd, xStep)` selected by `generateBitBltFunction`. -/
def jitXParams (same : Bool) (srcX dstX aw : Int) : Int × Int × Int :=
  if overlapH same srcX dstX aw ∧ srcX < dstX then (aw - 1, -1, -1) else (0, aw, 1)

/-- `(yStart, yEnd, yStep)` selected by `generateBitBltFunction`. -/
def jitYParams (same : Bool) (srcY dstY ah : Int) : Int × Int × Int :=
  if overlapV same srcY dstY ah ∧ srcY < dstY then (ah - 1, -1, -1) else (0, ah, 1)

/-- Index sequence of the generated loop `for (v = start; v !== end; v += step)`
for the two parameter shapes the generator emits — `(0, n, 1)` and
`(n-1, -1, -1)` — in the cases where the JS loop terminates (`n ≥ 0`; a
forward loop towards a negative `end` never terminates in JS, and the
theorems below exclude that case by hypothesis). -/
def loopIdx (t : Int × Int × Int) : List Int :=
  if t.2.2 = 1 then intRange t.2.1 else (intRange (t.1 + 1)).reverse

/-- One iteration of the code emitted by `generateBitBltFunction`: the same
pixel transfer as `bitbltStep` but with the bounds-unchecked address
arithmetic burned into the template (lines computing `srcIntIndex`,
`dstIntIndex`, `srcBitIndex`, `dstBitIndex` and the masked update). -/
def genStep (same : Bool) (src : Bitmap) (dstX dstY srcX srcY op : Int)
    (d : Bitmap) (yx : Int × Int) : Bitmap :=
  let srcPixelX := srcX + yx.2
  let srcPixelY := srcY + yx.1
  let dstPixelX := dstX + yx.2
  let dstPixelY := dstY + yx.1
  let srcBm := if same then d else src
  let srcIntIndex := srcPixelY * srcBm.intsPerRow + srcPixelX.fdiv 32
  let dstIntIndex := dstPixelY * d.intsPerRow + dstPixelX.fdiv 32
  let srcBitIndex := 31 - srcPixelX.tmod 32
  let dstBitIndex := 31 - dstPixelX.tmod 32
  let srcPixel := if readWord srcBm.data srcIntIndex &&& (1 <<< jsShiftAmt srcBitIndex) ≠ 0 then 1 else 0
  let dstPixel := if readWord d.data dstIntIndex &&& (1 <<< jsShiftAmt dstBitIndex) ≠ 0 then 1 else 0
  let resultPixel := opCombine op srcPixel dstPixel
  let w := readWord d.data dstIntIndex
  let w' := if resultPixel = 1 then w ||| (1 <<< jsShiftAmt dstBitIndex)
            else w &&& (mask32 ^^^ (1 <<< jsShiftAmt dstBitIndex))
  { d with data := writeWord d.data dstIntIndex w' }

/-- The `(y, x)` traversal order of the generated nested loops. -/
def jitPairs (same : Bool) (srcX srcY dstX dstY aw ah : Int) : List (Int × Int) :=
  (loopIdx (jitYParams same srcY dstY ah)).flatMap
    (fun j => (loopIdx (jitXParams same srcX dstX aw)).map (fun i => (j, i)))

/-- `generateBitBltFunction(dst, dstX, dstY, width, height, src, srcX, srcY, op)`
followed by invoking the produced function on `(src, dst)`: clipping, overlap
detection, direction selection, then the specialized transfer loop. -/
def generateBitBltRun (same : Bool) (dst : Bitmap) (dstX dstY width height : Int)
    (src : Bitmap) (srcX srcY : Int) (op : Int) : Bitmap × Bitmap :=
  let srcMaxX := min (srcX + width) src.width
  let srcMaxY := min (srcY + height) src.height
  let dstMaxX := min (dstX + width) dst.width
  let dstMaxY := min (dstY + height) dst.height
  let actualWidth := min (srcMaxX - srcX) (dstMaxX - dstX)
  let actualHeight := min (srcMaxY - srcY) (dstMaxY - dstY)
  (jitPairs same srcX srcY dstX dstY actualWidth actualHeight).foldl
    (fun st yx => (st.1, genStep same st.1 dstX dstY srcX srcY op st.2 yx))
    (src, dst)

/-- `jitBitBlt` from the JIT compiler module: degenerate-size early return,
otherwise generate the specialized function and run it. -/
def jitBitBlt (same : Bool) (dst : Bitmap) (dstX dstY width height : Int)
    (src : Bitmap) (srcX srcY : Int) (op : Int) : Bitmap × Bitmap :=
  if width ≤ 0 ∨ height ≤ 0 then (src, dst)
  else generateBitBltRun same dst dstX dstY width height src srcX srcY op

/-- One word iteration of `bitbltAligned`'s inner loop. -/
def alignedStep (same : Bool) (src : Bitmap) (srcRowIndex dstRowIndex op : Int)
    (d : Bitmap) (i : Int) : Bitmap :=
  let srcBm := if same then d else src
  let srcInt := readWord srcBm.data (srcRowIndex + i)
  let dstInt := readWord d.data (dstRowIndex + i)
  { d with data := writeWord d.data (dstRowIndex + i) (opCombine op srcInt dstInt) }

/-- `bitbltAligned(dst, dstX, dstY, width, height, src, srcX, srcY, op)` from
`src/bitblt.js`: falls back to `bitblt` when unaligned, otherwise transfers
whole words with no clipping and no overlap handling. -/
def bitbltAligned (same : Bool) (dst : Bitmap) (dstX dstY width height : Int)
    (src : Bitmap) (srcX srcY : Int) (op : Int) : Bitmap × Bitmap :=
  if ¬(dstX.tmod 32 = 0 ∧ srcX.tmod 32 = 0 ∧ width.tmod 32 = 0) then
    bitblt same dst dstX dstY width height src srcX srcY op
  else
    let intsPerRow := width.fdiv 32
    let srcStartIntX := srcX.fdiv 32
    let dstStartIntX := dstX.fdiv 32
    (intRange height).foldl
      (fun st y =>
        let srcBm := if same then st.2 else st.1
        let srcRowIndex := (srcY + y) * srcBm.intsPerRow + srcStartIntX
        let dstRowIndex := (dstY + y) * st.2.intsPerRow + dstStartIntX
        (st.1, (intRange intsPerRow).foldl
          (alignedStep same st.1 srcRowIndex dstRowIndex op) st.2))
      (src, dst)

/-- Word-level horizontal overlap test of `jitBitBltAligned`. -/
def overlapHWords (same : Bool) (srcStartIntX dstStartIntX intsPerRow : Int) : Prop :=
  same = true ∧ ((srcStartIntX < dstStartIntX ∧ srcStartIntX + intsPerRow > dstStartIntX) ∨
    (dstStartIntX < srcStartIntX ∧ dstStartIntX + intsPerRow > srcStartIntX))

instance (same : Bool) (s d n : Int) : Decidable (overlapHWords same s d n) := by
  unfold overlapHWords; exact inferInstance

/-- Row overlap test of `jitBitBltAligned` (on `height`, unclipped). -/
def overlapVRows (same : Bool) (srcStartRow dstStartRow height : Int) : Prop :=
  same = true ∧ ((srcStartRow < dstStartRow ∧ srcStartRow + height > dstStartRow) ∨
    (dstStartRow < srcStartRow ∧ dstStartRow + height > srcStartRow))

instance (same : Bool) (s d n : Int) : Decidable (overlapVRows same s d n) := by
  unfold overlapVRows; exact inferInstance

/-- `jitBitBltAligned` from the JIT compiler module: falls back to `jitBitBlt`
when unaligned; otherwise chooses word/row directions from the overlap tests
and runs the generated whole-word loops. -/
def jitBitBltAligned (same : Bool) (dst : Bitmap) (dstX dstY width height : Int)
    (src : Bitmap) (srcX srcY : Int) (op : Int) : Bitmap × Bitmap :=
  if ¬(dstX.tmod 32 = 0 ∧ srcX.tmod 32 = 0 ∧ width.tmod 32 = 0) then
    jitBitBlt same dst dstX dstY width height src srcX srcY op
  else
    let intsPerRow := width.fdiv 32
    let srcStartIntX := srcX.fdiv 32
    let dstStartIntX := dstX.fdiv 32
    let iT : Int × Int × Int :=
      if overlapHWords same srcStartIntX dstStartIntX intsPerRow ∧ srcStartIntX < dstStartIntX
      then (intsPerRow - 1, -1, -1) else (0, intsPerRow, 1)
    let yT : Int × Int × Int :=
      if overlapVRows same srcY dstY height ∧ srcY < dstY
      then (height - 1, -1, -1) else (0, height, 1)
    (loopIdx yT).foldl
      (fun st y =>
        let srcBm := if same then st.2 else st.1
        let srcRowIndex := (srcY + y) * srcBm.intsPerRow + srcStartIntX
        let dstRowIndex := (dstY + y) * st.2.intsPerRow + dstStartIntX
        (st.1, (loopIdx iT).foldl
          (alignedStep same st.1 srcRowIndex dstRowIndex op) st.2))
      (src, dst)

/-- `fillRect(bitmap, x, y, width, height, value)` from `src/bitblt.js`:
per-pixel fill, rows `y ≤ row < min (y+height) bm.height`, columns
`x ≤ col < min (x+width) bm.width`, each through the defensively clamped
`setPixel`. -/
def fillRect (bm : Bitmap) (x y width height : Int) (value : Nat) : Bitmap :=
  (intsFrom y (min (y + height) bm.height - y).toNat).foldl
    (fun b row =>
      (intsFrom x (min (x + width) b.width - x).toNat).foldl
        (fun b' col => setPixel b' col row value) b)
    bm

/-- `fillRectAligned(bitmap, x, y, width, height, value)` from
`src/bitblt.js`: delegates to `fillRect` when unaligned, otherwise writes
whole words `0xffffffff` or `0`; rows run while `row < height` and
`y + row < bm.height`, words while `i < width/32` and `x/32 + i < bm.intsPerRow`. -/
def fillRectAligned (bm : Bitmap) (x y width height : Int) (value : Nat) : Bitmap :=
  if ¬(x.tmod 32 = 0 ∧ width.tmod 32 = 0) then fillRect bm x y width height value
  else
    let intsPerRow := width.fdiv 32
    let startIntX := x.fdiv 32
    let fillValue := if value = 1 then mask32 else 0
    (intRange (min height (bm.height - y))).foldl
      (fun b row =>
        let rowIndex := (y + row) * b.intsPerRow + startIntX
        (intRange (min intsPerRow (b.intsPerRow - startIntX))).foldl
          (fun b' i => { b' with data := writeWord b'.data (rowIndex + i) fillValue }) b)
      bm

/-- Control-flow outcome of one `JitExecutor.execute` call
(`src/jit_executor.js`, lines 69–108): the method computes the alignment
flag and the cache key, then unconditionally performs one cache lookup and,
on a miss, generates and inserts code — there is no width/height check
anywhere on this path.  The generator objects live in
`src/code_generators/*` (not part of the sources); the key is therefore
abstract here, which the control flow never inspects. -/
structure ExecOutcome where
  cacheLookups : Nat
  generatedCode : Bool
deriving DecidableEq, Repr

/-- The lookup/generation trace of `JitExecutor.execute` as a function of the
call's width and height and of the keys already cached: one lookup always
happens, and code is generated exactly on a cache miss, regardless of
`width`/`height` (the underscores record that the source never branches on
them before the lookup). -/
def executeOutcome (_width _height : Int) (cachedKeys : List String) (key : String)
    : ExecOutcome :=
  { cacheLookups := 1, generatedCode := decide (key ∉ cachedKeys) }

/-- State of a `JitExecutor` as far as `setDefaultGenerator` can observe or
change it: the fixed table of registered generators, the current default, and
the two code caches (entries abstracted to key lists). -/
structure ExecutorState where
  generators : List String
  defaultGenerator : String
  jsCacheKeys : List String
  wasmCacheKeys : List String
deriving DecidableEq, Repr

/-- The state built by the `JitExecutor` constructor. -/
def ExecutorState.init : ExecutorState :=
  { generators := ["javascript", "wasm"], defaultGenerator := "javascript",
    jsCacheKeys := [], wasmCacheKeys := [] }

/-- The properties every plain object literal inherits from
`Object.prototype`, all of which evaluate truthy under `obj[name]` (they are
functions, and `__proto__` is the prototype object itself). -/
def objectProtoKeys : List String :=
  ["constructor", "toString", "toLocaleString", "valueOf", "hasOwnProperty",
   "isPrototypeOf", "propertyIsEnumerable", "__defineGetter__",
   "__defineSetter__", "__lookupGetter__", "__lookupSetter__", "__proto__"]

/-- `JitExecutor.setDefaultGenerator(generatorType)`: the guard is the truthy
lookup `!this.generators[generatorType]` on the object literal
`this.generators`, so it passes for a registered generator (a truthy
generator object) and also for every property inherited from
`Object.prototype`; only when the lookup is falsy does it throw
`Unknown code generator type` before touching any state, otherwise it assigns
only `this.defaultGenerator`. -/
def setDefaultGenerator (s : ExecutorState) (generatorType : String)
    : Except String ExecutorState :=
  if generatorType ∈ s.generators ∨ generatorType ∈ objectProtoKeys then
    Except.ok { s with defaultGenerator := generatorType }
  else
    Except.error ("Unknown code generator type: " ++ generatorType)

/-! ## Arithmetic bridges between JS operators and omega-friendly forms -/

theorem fdiv32_eq (x : Int) : x.fdiv 32 = x / 32 :=
  Int.fdiv_eq_ediv x (by norm_num)

theorem tmod32_eq {x : Int} (h : 0 ≤ x) : x.tmod 32 = x % 32 :=
  Int.tmod_eq_emod h (by norm_num)

/-- The bit position inside its word of a nonnegative pixel column `x`. -/
def bitPos (x : Int) : Nat := 31 - (x % 32).toNat

theorem jsShiftAmt_eq_bitPos {x : Int} (h : 0 ≤ x) :
    jsShiftAmt (31 - x.tmod 32) = bitPos x := by
  rw [tmod32_eq h]
  unfold jsShiftAmt bitPos
  have h1 : 0 ≤ x % 32 := Int.emod_nonneg x (by norm_num)
  have h2 : x % 32 < 32 := Int.emod_lt_of_pos x (by norm_num)
  have h3 : (31 - x % 32) % 32 = 31 - x % 32 := Int.emod_eq_of_lt (by omega) (by omega)
  omega

theorem bitPos_lt (x : Int) : bitPos x < 32 := by
  unfold bitPos; omega

/-! ## Word read/write lemmas -/

theorem getD_ext_read (d : List Nat) (k v j : Nat) (hk : d.length ≤ k) :
    (d ++ List.replicate (k - d.length) 0 ++ [v]).getD j 0
      = if j = k then v else d.getD j 0 := by
  rw [List.append_assoc]
  by_cases hjd : j < d.length
  · rw [List.getD_append _ _ _ _ hjd, if_neg (by omega)]
  · rw [List.getD_append_right _ _ _ _ (by omega)]
    have hrep : (List.replicate (k - d.length) (0 : Nat)).length = k - d.length := by simp
    by_cases hjr : j - d.length < k - d.length
    · rw [List.getD_append _ _ _ _ (by omega), if_neg (by omega)]
      rw [List.getD_eq_getElem?_getD, List.getElem?_replicate, if_pos hjr]
      rw [List.getD_eq_getElem?_getD, List.getElem?_eq_none (by omega)]
      simp
    · rw [List.getD_append_right _ _ _ _ (by omega)]
      by_cases hje : j = k
      · rw [if_pos hje]
        have : j - d.length - (k - d.length) = 0 := by omega
        rw [hrep, this]
        simp
      · rw [if_neg hje, hrep]
        have hd0 : d.getD j 0 = 0 := by
          rw [List.getD_eq_getElem?_getD, List.getElem?_eq_none (by omega)]
          rfl
        have hv0 : ([v].getD (j - d.length - (k - d.length)) 0) = 0 := by
          rw [List.getD_eq_getElem?_getD, List.getElem?_eq_none (by simp; omega)]
          rfl
        rw [hd0, hv0]

theorem readWord_writeWord_self {d : List Nat} {i : Int} (h0 : 0 ≤ i) (v : Nat) :
    readWord (writeWord d i v) i = v := by
  unfold readWord writeWord
  simp only [if_pos h0]
  by_cases hl : i.toNat < d.length
  · rw [if_pos hl, List.getD_eq_getElem _ _ (by simpa using hl)]
    simp
  · rw [if_neg hl, getD_ext_read _ _ _ _ (by omega), if_pos rfl]

theorem readWord_writeWord_ne {d : List Nat} {i j : Int} (h : i ≠ j) (v : Nat) :
    readWord (writeWord d i v) j = readWord d j := by
  unfold readWord writeWord
  by_cases h0 : 0 ≤ i
  · simp only [if_pos h0]
    by_cases hj : 0 ≤ j
    · simp only [if_pos hj]
      have hij : i.toNat ≠ j.toNat := by omega
      by_cases hl : i.toNat < d.length
      · simp only [if_pos hl]
        by_cases hjl : j.toNat < d.length
        · rw [List.getD_eq_getElem _ _ (by simpa using hjl),
            List.getD_eq_getElem _ _ hjl]
          exact List.getElem_set_ne hij _
        · rw [List.getD_eq_getElem?_getD, List.getD_eq_getElem?_getD,
            List.getElem?_eq_none (by simpa using hjl),
            List.getElem?_eq_none (by omega)]
      · rw [if_neg hl, getD_ext_read _ _ _ _ (by omega), if_neg (by omega)]
    · simp [hj]
  · simp [h0]

theorem writeWord_length {d : List Nat} {i : Int}
    (hl : 0 ≤ i → i.toNat < d.length) (v : Nat) :
    (writeWord d i v).length = d.length := by
  unfold writeWord
  by_cases h0 : 0 ≤ i
  · simp [h0, hl h0]
  · simp [h0]

theorem writeWord_words_lt {d : List Nat} {i : Int} {v : Nat}
    (hd : ∀ w ∈ d, w < 2 ^ 32) (hv : v < 2 ^ 32) :
    ∀ w ∈ writeWord d i v, w < 2 ^ 32 := by
  unfold writeWord
  intro w hw
  by_cases h0 : 0 ≤ i
  · simp only [if_pos h0] at hw
    by_cases hl : i.toNat < d.length
    · rw [if_pos hl] at hw
      rcases List.mem_or_eq_of_mem_set hw with h | h
      · exact hd w h
      · omega
    · rw [if_neg hl] at hw
      simp only [List.mem_append, List.mem_replicate, List.mem_singleton] at hw
      rcases hw with (h | h) | h
      · exact hd w h
      · omega
      · omega
  · rw [if_neg h0] at hw; exact hd w hw

theorem readWord_lt {d : List Nat} (hd : ∀ w ∈ d, w < 2 ^ 32) (i : Int) :
    readWord d i < 2 ^ 32 := by
  unfold readWord
  split
  · by_cases hl : i.toNat < d.length
    · rw [List.getD_eq_getElem _ _ hl]
      exact hd _ (List.getElem_mem hl)
    · rw [List.getD_eq_getElem?_getD, List.getElem?_eq_none (by omega)]
      norm_num
  · norm_num

/-! ## Bit-level lemmas -/

theorem mask32_eq : mask32 = 2 ^ 32 - 1 := by norm_num [mask32]

theorem and_shift_ne_iff (w b : Nat) : (w &&& (1 <<< b) ≠ 0) ↔ w.testBit b := by
  rw [Nat.one_shiftLeft]
  constructor
  · intro h
    by_contra hb
    apply h
    apply Nat.eq_of_testBit_eq
    intro i
    rw [Nat.testBit_land, Nat.testBit_two_pow, Nat.zero_testBit]
    by_cases hib : b = i
    · subst hib; simp [Bool.not_eq_true] at hb; simp [hb]
    · simp [hib]
  · intro h hc
    have := congrArg (Nat.testBit · b) hc
    simp only [Nat.testBit_land, Nat.testBit_two_pow, Nat.zero_testBit] at this
    rw [h] at this
    simp at this

theorem testBit_or_shift (w b p : Nat) :
    (w ||| (1 <<< b)).testBit p = (w.testBit p || decide (b = p)) := by
  rw [Nat.one_shiftLeft, Nat.testBit_lor, Nat.testBit_two_pow]

theorem testBit_and_not_shift (w b p : Nat) (hb : b < 32) (hw : w < 2 ^ 32) :
    (w &&& (mask32 ^^^ (1 <<< b))).testBit p = (w.testBit p && !decide (b = p)) := by
  rw [Nat.one_shiftLeft, mask32_eq, Nat.testBit_land, Nat.testBit_xor,
    Nat.testBit_two_pow_sub_one, Nat.testBit_two_pow]
  by_cases hp : p < 32
  · simp [hp]
  · have : w.testBit p = false := Nat.testBit_lt_two_pow
      (lt_of_lt_of_le hw (Nat.pow_le_pow_right (by norm_num) (by omega)))
    simp [this, hp]

theorem setPixelWord_lt {w : Nat} (hw : w < 2 ^ 32) (b : Nat) (hb : b < 32) (v : Nat) :
    (if v = 1 then w ||| (1 <<< b) else w &&& (mask32 ^^^ (1 <<< b))) < 2 ^ 32 := by
  split
  · exact Nat.or_lt_two_pow hw
      (by rw [Nat.one_shiftLeft]; exact Nat.pow_lt_pow_right (by norm_num) hb)
  · exact Nat.and_lt_two_pow w (by
      rw [mask32_eq]
      exact Nat.xor_lt_two_pow (by norm_num)
        (by rw [Nat.one_shiftLeft]; exact Nat.pow_lt_pow_right (by norm_num) hb))

theorem opCombine_lt {s d : Nat} (hs : s < 2 ^ 32) (hd : d < 2 ^ 32) (op : Int) :
    opCombine op s d < 2 ^ 32 := by
  unfold opCombine
  split
  · exact Nat.and_lt_two_pow s hd
  · split
    · exact Nat.or_lt_two_pow hs hd
    · split
      · exact Nat.xor_lt_two_pow hs hd
      · exact hs

theorem opCombine_testBit (op : Int) (s d : Nat) (p : Nat) :
    (opCombine op s d).testBit p
      = (opCombine op (if s.testBit p then 1 else 0) (if d.testBit p then 1 else 0)).testBit 0 := by
  unfold opCombine
  split
  · rw [Nat.testBit_land]
    rcases hs : s.testBit p <;> rcases hd : d.testBit p <;> simp
  · split
    · rw [Nat.testBit_lor]
      rcases hs : s.testBit p <;> rcases hd : d.testBit p <;> simp
    · split
      · rw [Nat.testBit_xor]
        rcases hs : s.testBit p <;> rcases hd : d.testBit p <;> simp
      · rcases hs : s.testBit p <;> simp

/-! ## Pixel-level lemmas about `getPixel` and `setPixel` -/

/-- `(x, y)` addresses an actual pixel of `bm`. -/
def InRange (bm : Bitmap) (x y : Int) : Prop :=
  0 ≤ x ∧ x < bm.width ∧ 0 ≤ y ∧ y < bm.height

instance (bm : Bitmap) (x y : Int) : Decidable (InRange bm x y) := by
  unfold InRange; exact inferInstance

theorem Bitmap.WF.ipr_nonneg {bm : Bitmap} (h : bm.WF) : 0 ≤ bm.intsPerRow := by
  obtain ⟨hw, -, hipr, -, -⟩ := h
  rw [hipr, fdiv32_eq]
  exact Int.ediv_nonneg (by omega) (by norm_num)

theorem Bitmap.WF.width_le {bm : Bitmap} (h : bm.WF) : bm.width ≤ 32 * bm.intsPerRow := by
  obtain ⟨hw, -, hipr, -, -⟩ := h
  rw [hipr, fdiv32_eq]
  omega

/-- The word index of an in-range pixel is a valid index into `data`. -/
theorem wordIdx_bounds {bm : Bitmap} (hwf : bm.WF) {x y : Int}
    (hx : 0 ≤ x) (hx2 : x < bm.width) (hy : 0 ≤ y) (hy2 : y < bm.height) :
    0 ≤ y * bm.intsPerRow + x.fdiv 32 ∧
      (y * bm.intsPerRow + x.fdiv 32).toNat < bm.data.length := by
  rw [fdiv32_eq]
  have hwle := hwf.width_le
  have hipr0 := hwf.ipr_nonneg
  obtain ⟨-, -, -, hlen, -⟩ := hwf
  have hq0 : 0 ≤ x / 32 := Int.ediv_nonneg hx (by norm_num)
  have hql : x / 32 < bm.intsPerRow := by omega
  have hmul1 : 0 ≤ y * bm.intsPerRow := mul_nonneg hy hipr0
  have hmul2 : y * bm.intsPerRow ≤ (bm.height - 1) * bm.intsPerRow :=
    mul_le_mul_of_nonneg_right (by omega) hipr0
  have hring : (bm.height - 1) * bm.intsPerRow + bm.intsPerRow = bm.height * bm.intsPerRow := by
    ring
  omega

/-- Euclidean uniqueness for `row * stride + col` with `0 ≤ col < stride`. -/
theorem rowcol_unique {a a' c c' q : Int} (hc : 0 ≤ c) (hcq : c < q)
    (hc' : 0 ≤ c') (hcq' : c' < q) (heq : a * q + c = a' * q + c') :
    a = a' ∧ c = c' := by
  rcases lt_trichotomy a a' with h | h | h
  · exfalso
    have h1 : (a + 1) * q ≤ a' * q := mul_le_mul_of_nonneg_right (by omega) (by omega)
    nlinarith
  · subst h
    constructor
    · rfl
    · linarith
  · exfalso
    have h1 : (a' + 1) * q ≤ a * q := mul_le_mul_of_nonneg_right (by omega) (by omega)
    nlinarith

/-- Distinct in-range pixels address a distinct word or a distinct bit. -/
theorem cell_eq_of_idx_eq {bm : Bitmap} (hwf : bm.WF) {x y x' y' : Int}
    (hx : 0 ≤ x) (hx2 : x < bm.width) (hy : 0 ≤ y) (hy2 : y < bm.height)
    (hx' : 0 ≤ x') (hx2' : x' < bm.width) (hy' : 0 ≤ y') (hy2' : y' < bm.height)
    (hidx : y * bm.intsPerRow + x.fdiv 32 = y' * bm.intsPerRow + x'.fdiv 32)
    (hbit : bitPos x = bitPos x') : x = x' ∧ y = y' := by
  rw [fdiv32_eq, fdiv32_eq] at hidx
  have hwle := hwf.width_le
  have hq0 : 0 ≤ x / 32 := Int.ediv_nonneg hx (by norm_num)
  have hql : x / 32 < bm.intsPerRow := by omega
  have hq0' : 0 ≤ x' / 32 := Int.ediv_nonneg hx' (by norm_num)
  have hql' : x' / 32 < bm.intsPerRow := by omega
  obtain ⟨hy_eq, hq_eq⟩ := rowcol_unique hq0 hql hq0' hql' hidx
  unfold bitPos at hbit
  constructor
  · omega
  · omega

theorem setPixel_width (bm : Bitmap) (x y : Int) (v : Nat) :
    (setPixel bm x y v).width = bm.width := by
  unfold setPixel; split <;> rfl

theorem setPixel_height (bm : Bitmap) (x y : Int) (v : Nat) :
    (setPixel bm x y v).height = bm.height := by
  unfold setPixel; split <;> rfl

theorem setPixel_intsPerRow (bm : Bitmap) (x y : Int) (v : Nat) :
    (setPixel bm x y v).intsPerRow = bm.intsPerRow := by
  unfold setPixel; split <;> rfl

theorem setPixel_length {bm : Bitmap} (hwf : bm.WF) (x y : Int) (v : Nat) :
    (setPixel bm x y v).data.length = bm.data.length := by
  unfold setPixel
  split
  · rfl
  · rename_i hob
    push_neg at hob
    obtain ⟨h1, h2, h3, h4⟩ := hob
    exact writeWord_length
      (fun _ => (wordIdx_bounds hwf (by omega) (by omega) (by omega) (by omega)).2) _

theorem setPixel_WF {bm : Bitmap} (hwf : bm.WF) (x y : Int) (v : Nat) :
    (setPixel bm x y v).WF := by
  have hlen := setPixel_length hwf x y v
  have hW := setPixel_width bm x y v
  have hH := setPixel_height bm x y v
  have hI := setPixel_intsPerRow bm x y v
  obtain ⟨h1, h2, h3, h4, h5⟩ := hwf
  refine ⟨by omega, by omega, by rw [hI, hW]; exact h3, by rw [hlen, hI, hH]; exact h4, ?_⟩
  unfold setPixel
  split
  · exact h5
  · exact writeWord_words_lt h5
      (setPixelWord_lt (readWord_lt h5 _) _ (by
        rename_i hob; push_neg at hob
        rw [jsShiftAmt_eq_bitPos (by omega)]; exact bitPos_lt _) _)

theorem getPixel_zero_or_one (bm : Bitmap) (x y : Int) :
    getPixel bm x y = 0 ∨ getPixel bm x y = 1 := by
  unfold getPixel
  dsimp only
  split
  · exact Or.inl rfl
  · split
    · exact Or.inr rfl
    · exact Or.inl rfl

theorem getPixel_oob {bm : Bitmap} {x y : Int}
    (h : x < 0 ∨ x ≥ bm.width ∨ y < 0 ∨ y ≥ bm.height) : getPixel bm x y = 0 := by
  unfold getPixel
  rw [if_pos h]

/-- In range, `getPixel` is the addressed word's bit. -/
theorem getPixel_in {bm : Bitmap} {x y : Int}
    (hx : 0 ≤ x) (hx2 : x < bm.width) (hy : 0 ≤ y) (hy2 : y < bm.height) :
    getPixel bm x y
      = if (readWord bm.data (y * bm.intsPerRow + x.fdiv 32)).testBit (bitPos x)
        then 1 else 0 := by
  unfold getPixel
  dsimp only
  rw [if_neg (by omega)]
  simp only [jsShiftAmt_eq_bitPos hx]
  by_cases h : (readWord bm.data (y * bm.intsPerRow + x.fdiv 32)).testBit (bitPos x)
  · rw [if_pos ((and_shift_ne_iff _ _).mpr h), if_pos h]
  · rw [if_neg (fun hc => h ((and_shift_ne_iff _ _).mp hc)), if_neg h]

/-- `getPixel_in` for a bitmap given as a structure literal (the shape produced
by `setPixel` and the transfer steps). -/
theorem getPixel_in_mk {W H I : Int} {D : List Nat} {x y : Int}
    (hx : 0 ≤ x) (hx2 : x < W) (hy : 0 ≤ y) (hy2 : y < H) :
    getPixel ⟨W, H, I, D⟩ x y
      = if (readWord D (y * I + x.fdiv 32)).testBit (bitPos x) then 1 else 0 :=
  @getPixel_in ⟨W, H, I, D⟩ x y hx hx2 hy hy2

theorem getPixel_setPixel_self {bm : Bitmap} (hwf : bm.WF) {x y : Int}
    (hx : 0 ≤ x) (hx2 : x < bm.width) (hy : 0 ≤ y) (hy2 : y < bm.height) (v : Nat) :
    getPixel (setPixel bm x y v) x y = if v = 1 then 1 else 0 := by
  have hb := wordIdx_bounds hwf hx hx2 hy hy2
  unfold setPixel
  rw [if_neg (by omega)]
  dsimp only
  rw [getPixel_in_mk hx hx2 hy hy2]
  simp only [jsShiftAmt_eq_bitPos hx]
  rw [readWord_writeWord_self hb.1]
  split
  · rw [if_pos (by rw [testBit_or_shift]; simp)]
  · rw [if_neg (by
      rw [testBit_and_not_shift _ _ _ (bitPos_lt x) (readWord_lt hwf.2.2.2.2 _)]
      simp)]

theorem getPixel_setPixel_ne {bm : Bitmap} (hwf : bm.WF) {x y x' y' : Int}
    (hne : ¬(x' = x ∧ y' = y)) (v : Nat) :
    getPixel (setPixel bm x y v) x' y' = getPixel bm x' y' := by
  unfold setPixel
  split
  · rfl
  · rename_i hob
    push_neg at hob
    obtain ⟨hx, hx2, hy, hy2⟩ := hob
    by_cases hob' : x' < 0 ∨ x' ≥ bm.width ∨ y' < 0 ∨ y' ≥ bm.height
    · rw [getPixel_oob (by simpa using hob'), getPixel_oob hob']
    · push_neg at hob'
      obtain ⟨hx', hx2', hy', hy2'⟩ := hob'
      dsimp only
      simp only [jsShiftAmt_eq_bitPos hx]
      rw [getPixel_in_mk hx' hx2' hy' hy2', getPixel_in hx' hx2' hy' hy2']
      by_cases hidx : y' * bm.intsPerRow + x'.fdiv 32 = y * bm.intsPerRow + x.fdiv 32
      · rw [hidx, readWord_writeWord_self (wordIdx_bounds hwf (by omega) (by omega) (by omega) (by omega)).1]
        have hbp : bitPos x' ≠ bitPos x := by
          intro hc
          exact hne (by
            have := cell_eq_of_idx_eq hwf hx' hx2' hy' hy2' (by omega) (by omega)
              (by omega) (by omega) hidx hc
            exact ⟨this.1, this.2⟩)
        have hbp' : bitPos x ≠ bitPos x' := fun hc => hbp hc.symm
        split
        · rw [testBit_or_shift]
          simp [hbp']
        · rw [testBit_and_not_shift _ _ _ (bitPos_lt x) (readWord_lt hwf.2.2.2.2 _)]
          simp [hbp']
      · rw [readWord_writeWord_ne (fun hc => hidx hc.symm)]

/-! ## Fold engine over pixel transfer steps -/

theorem foldl_pair_fst {α β γ : Type} (g : α → β → γ → β) (s : α) (d : β) (L : List γ) :
    (L.foldl (fun st yx => (st.1, g st.1 st.2 yx)) (s, d)).1 = s := by
  induction L generalizing d with
  | nil => rfl
  | cons a t ih => exact ih _

theorem foldl_pair_snd {α β γ : Type} (g : α → β → γ → β) (s : α) (d : β) (L : List γ) :
    (L.foldl (fun st yx => (st.1, g st.1 st.2 yx)) (s, d)).2
      = L.foldl (fun b yx => g s b yx) d := by
  induction L generalizing d with
  | nil => rfl
  | cons a t ih => exact ih _

/-- The destination-side fold of the naive transfer over a step list. -/
def blitFold (same : Bool) (src : Bitmap) (dstX dstY srcX srcY op : Int)
    (d : Bitmap) (L : List (Int × Int)) : Bitmap :=
  L.foldl (bitbltStep same src dstX dstY srcX srcY op) d

theorem bitbltStep_width (same : Bool) (src : Bitmap) (dstX dstY srcX srcY op : Int)
    (d : Bitmap) (yx : Int × Int) :
    (bitbltStep same src dstX dstY srcX srcY op d yx).width = d.width :=
  setPixel_width _ _ _ _

theorem bitbltStep_height (same : Bool) (src : Bitmap) (dstX dstY srcX srcY op : Int)
    (d : Bitmap) (yx : Int × Int) :
    (bitbltStep same src dstX dstY srcX srcY op d yx).height = d.height :=
  setPixel_height _ _ _ _

theorem bitbltStep_intsPerRow (same : Bool) (src : Bitmap) (dstX dstY srcX srcY op : Int)
    (d : Bitmap) (yx : Int × Int) :
    (bitbltStep same src dstX dstY srcX srcY op d yx).intsPerRow = d.intsPerRow :=
  setPixel_intsPerRow _ _ _ _

theorem bitbltStep_WF {d : Bitmap} (hwf : d.WF) (same : Bool) (src : Bitmap)
    (dstX dstY srcX srcY op : Int) (yx : Int × Int) :
    (bitbltStep same src dstX dstY srcX srcY op d yx).WF :=
  setPixel_WF hwf _ _ _

theorem bitbltStep_length {d : Bitmap} (hwf : d.WF) (same : Bool) (src : Bitmap)
    (dstX dstY srcX srcY op : Int) (yx : Int × Int) :
    (bitbltStep same src dstX dstY srcX srcY op d yx).data.length = d.data.length :=
  setPixel_length hwf _ _ _

theorem blitFold_WF {d : Bitmap} (hwf : d.WF) (same : Bool) (src : Bitmap)
    (dstX dstY srcX srcY op : Int) (L : List (Int × Int)) :
    (blitFold same src dstX dstY srcX srcY op d L).WF := by
  induction L generalizing d with
  | nil => exact hwf
  | cons a t ih => exact ih (bitbltStep_WF hwf _ _ _ _ _ _ _ _)

theorem blitFold_dims {d : Bitmap} (hwf : d.WF) (same : Bool) (src : Bitmap)
    (dstX dstY srcX srcY op : Int) (L : List (Int × Int)) :
    (blitFold same src dstX dstY srcX srcY op d L).width = d.width ∧
    (blitFold same src dstX dstY srcX srcY op d L).height = d.height ∧
    (blitFold same src dstX dstY srcX srcY op d L).intsPerRow = d.intsPerRow ∧
    (blitFold same src dstX dstY srcX srcY op d L).data.length = d.data.length := by
  induction L generalizing d with
  | nil => exact ⟨rfl, rfl, rfl, rfl⟩
  | cons a t ih =>
    obtain ⟨h1, h2, h3, h4⟩ := @ih (bitbltStep same src dstX dstY srcX srcY op d a)
      (bitbltStep_WF hwf _ _ _ _ _ _ _ _)
    refine ⟨?_, ?_, ?_, ?_⟩
    · rw [blitFold, List.foldl_cons, ← blitFold, h1, bitbltStep_width]
    · rw [blitFold, List.foldl_cons, ← blitFold, h2, bitbltStep_height]
    · rw [blitFold, List.foldl_cons, ← blitFold, h3, bitbltStep_intsPerRow]
    · rw [blitFold, List.foldl_cons, ← blitFold, h4, bitbltStep_length hwf]

/-- Frame property: a pixel no step writes to is left unchanged by the fold. -/
theorem blitFold_frame {d : Bitmap} (hwf : d.WF) {same : Bool} {src : Bitmap}
    {dstX dstY srcX srcY op : Int} {L : List (Int × Int)} {cx cy : Int}
    (hL : ∀ p ∈ L, ¬(dstX + p.2 = cx ∧ dstY + p.1 = cy)) :
    getPixel (blitFold same src dstX dstY srcX srcY op d L) cx cy = getPixel d cx cy := by
  induction L generalizing d with
  | nil => rfl
  | cons a t ih =>
    rw [blitFold, List.foldl_cons, ← blitFold,
      ih (bitbltStep_WF hwf _ _ _ _ _ _ _ _) (fun p hp => hL p (List.mem_cons_of_mem a hp))]
    exact getPixel_setPixel_ne hwf
      (fun hc => hL a (List.mem_cons_self a t) ⟨hc.1.symm, hc.2.symm⟩) _

theorem opCombine_bit {s d : Nat} (hs : s = 0 ∨ s = 1) (hd : d = 0 ∨ d = 1) (op : Int) :
    (if opCombine op s d = 1 then 1 else 0) = opCombine op s d := by
  rcases hs with hs | hs <;> rcases hd with hd | hd <;> subst hs <;> subst hd <;>
    unfold opCombine <;> split <;> first
      | decide
      | (split <;> first | decide | (split <;> decide))

theorem opCombine_copy (s d : Nat) : opCombine BitBltOp.COPY s d = s := by
  unfold opCombine BitBltOp.COPY BitBltOp.AND BitBltOp.OR BitBltOp.XOR
  norm_num

/-- Write-once characterisation: with distinct source and destination bitmaps
and pairwise-distinct step offsets, each written pixel holds the combination
of the (fixed) source pixel with the original destination pixel. -/
theorem blitFold_writeonce {d : Bitmap} (hwf : d.WF) {src : Bitmap}
    {dstX dstY srcX srcY op : Int} {L : List (Int × Int)}
    (hDD : L.Pairwise (fun p q => p.1 ≠ q.1 ∨ p.2 ≠ q.2))
    {p : Int × Int} (hp : p ∈ L)
    (hin : InRange d (dstX + p.2) (dstY + p.1)) :
    getPixel (blitFold false src dstX dstY srcX srcY op d L) (dstX + p.2) (dstY + p.1)
      = opCombine op (getPixel src (srcX + p.2) (srcY + p.1))
          (getPixel d (dstX + p.2) (dstY + p.1)) := by
  induction L generalizing d with
  | nil => cases hp
  | cons a t ih =>
    obtain ⟨hhead, htail⟩ := List.pairwise_cons.mp hDD
    rcases List.mem_cons.mp hp with hpa | hpt
    · subst hpa
      rw [blitFold, List.foldl_cons, ← blitFold]
      rw [blitFold_frame (bitbltStep_WF hwf _ _ _ _ _ _ _ _)
        (fun q hq hc => by
          rcases hhead q hq with h | h
          · exact h (by omega)
          · exact h (by omega))]
      unfold bitbltStep
      dsimp only
      simp only [Bool.false_eq_true, if_false]
      rw [getPixel_setPixel_self hwf (by exact hin.1) (by exact hin.2.1)
        (by exact hin.2.2.1) (by exact hin.2.2.2)]
      exact opCombine_bit (getPixel_zero_or_one _ _ _) (getPixel_zero_or_one _ _ _) op
    · rw [blitFold, List.foldl_cons, ← blitFold]
      have hwf' := bitbltStep_WF hwf false src dstX dstY srcX srcY op a
      have hdims : (bitbltStep false src dstX dstY srcX srcY op d a).width = d.width ∧
          (bitbltStep false src dstX dstY srcX srcY op d a).height = d.height :=
        ⟨bitbltStep_width _ _ _ _ _ _ _ _ _, bitbltStep_height _ _ _ _ _ _ _ _ _⟩
      rw [ih hwf' htail hpt (by
        refine ⟨hin.1, ?_, hin.2.2.1, ?_⟩
        · rw [hdims.1]; exact hin.2.1
        · rw [hdims.2]; exact hin.2.2.2)]
      congr 1
      unfold bitbltStep
      dsimp only
      simp only [Bool.false_eq_true, if_false]
      exact getPixel_setPixel_ne hwf (fun hc => by
        rcases hhead p hpt with h | h
        · exact h (by omega)
        · exact h (by omega)) _

/-- Overlap-safe shift characterisation: an aliased `COPY` whose step order
never overwrites a still-unread source cell moves every source pixel intact
to its destination cell. -/
theorem blitFold_shift {d : Bitmap} (hwf : d.WF) {src : Bitmap}
    {dstX dstY srcX srcY : Int} {L : List (Int × Int)}
    (hDD : L.Pairwise (fun p q => p.1 ≠ q.1 ∨ p.2 ≠ q.2))
    (hDS : L.Pairwise (fun p q => ¬(dstX + p.2 = srcX + q.2 ∧ dstY + p.1 = srcY + q.1)))
    (hinD : ∀ p ∈ L, InRange d (dstX + p.2) (dstY + p.1)) :
    ∀ p ∈ L,
      getPixel (blitFold true src dstX dstY srcX srcY BitBltOp.COPY d L)
          (dstX + p.2) (dstY + p.1)
        = getPixel d (srcX + p.2) (srcY + p.1) := by
  induction L generalizing d with
  | nil => intro p hp; cases hp
  | cons a t ih =>
    obtain ⟨hDDh, hDDt⟩ := List.pairwise_cons.mp hDD
    obtain ⟨hDSh, hDSt⟩ := List.pairwise_cons.mp hDS
    have hstep : bitbltStep true src dstX dstY srcX srcY BitBltOp.COPY d a
        = setPixel d (dstX + a.2) (dstY + a.1) (getPixel d (srcX + a.2) (srcY + a.1)) := by
      unfold bitbltStep
      dsimp only
      rw [if_pos rfl, opCombine_copy]
    have hwf1 := bitbltStep_WF hwf true src dstX dstY srcX srcY BitBltOp.COPY a
    have hina := hinD a (List.mem_cons_self a t)
    intro p hp
    rcases List.mem_cons.mp hp with hpa | hpt
    · subst hpa
      rw [blitFold, List.foldl_cons, ← blitFold]
      rw [blitFold_frame hwf1 (fun q hq hc => by
        rcases hDDh q hq with h | h
        · exact h (by omega)
        · exact h (by omega))]
      rw [hstep, getPixel_setPixel_self hwf hina.1 hina.2.1 hina.2.2.1 hina.2.2.2]
      rcases getPixel_zero_or_one d (srcX + p.2) (srcY + p.1) with h | h <;> rw [h] <;> norm_num
    · rw [blitFold, List.foldl_cons, ← blitFold]
      have hdims : (bitbltStep true src dstX dstY srcX srcY BitBltOp.COPY d a).width = d.width ∧
          (bitbltStep true src dstX dstY srcX srcY BitBltOp.COPY d a).height = d.height :=
        ⟨bitbltStep_width _ _ _ _ _ _ _ _ _, bitbltStep_height _ _ _ _ _ _ _ _ _⟩
      rw [ih hwf1 hDDt hDSt (fun q hq => by
        obtain ⟨u1, u2, u3, u4⟩ := hinD q (List.mem_cons_of_mem a hq)
        exact ⟨u1, by rw [hdims.1]; exact u2, u3, by rw [hdims.2]; exact u4⟩) p hpt]
      rw [hstep]
      exact getPixel_setPixel_ne hwf (fun hc => hDSh p hpt ⟨hc.1.symm, hc.2.symm⟩) _

/-! ## Index list membership and ordering -/

theorem mem_intRange {n x : Int} : x ∈ intRange n ↔ 0 ≤ x ∧ x < n := by
  unfold intRange
  simp only [List.mem_map, List.mem_range]
  constructor
  · rintro ⟨k, hk, rfl⟩
    omega
  · rintro ⟨h0, h1⟩
    exact ⟨x.toNat, by omega, by omega⟩

theorem mem_rowMajor {ah aw : Int} {p : Int × Int} :
    p ∈ rowMajor ah aw ↔ (0 ≤ p.1 ∧ p.1 < ah) ∧ (0 ≤ p.2 ∧ p.2 < aw) := by
  unfold rowMajor
  simp only [List.mem_flatMap, List.mem_map]
  constructor
  · rintro ⟨j, hj, i, hi, rfl⟩
    exact ⟨mem_intRange.mp hj, mem_intRange.mp hi⟩
  · rintro ⟨hj, hi⟩
    exact ⟨p.1, mem_intRange.mpr hj, p.2, mem_intRange.mpr hi, rfl⟩

theorem pairwise_intRange (n : Int) : (intRange n).Pairwise (· < ·) := by
  unfold intRange
  rw [List.pairwise_map]
  exact (List.pairwise_lt_range n.toNat).imp (by intro a b h; omega)

/-- The generated loop order on one axis: strictly increasing forward,
strictly decreasing in reverse. -/
def dirOrd (rev : Bool) (a b : Int) : Prop := if rev then b < a else a < b

theorem pairwise_loopIdx_forward (n : Int) :
    (loopIdx (0, n, 1)).Pairwise (dirOrd false) := by
  unfold loopIdx dirOrd
  simp only [if_pos rfl]
  exact (pairwise_intRange n).imp (by intro a b h; simpa using h)

theorem pairwise_loopIdx_reverse (n : Int) :
    (loopIdx (n - 1, -1, -1)).Pairwise (dirOrd true) := by
  unfold loopIdx dirOrd
  norm_num
  rw [List.pairwise_reverse]
  exact (pairwise_intRange n).imp (by intro a b h; simpa using h)

theorem mem_loopIdx_forward {n x : Int} : x ∈ loopIdx (0, n, 1) ↔ 0 ≤ x ∧ x < n := by
  unfold loopIdx
  simp only [if_pos rfl]
  exact mem_intRange

theorem mem_loopIdx_reverse {n x : Int} : x ∈ loopIdx (n - 1, -1, -1) ↔ 0 ≤ x ∧ x < n := by
  unfold loopIdx
  norm_num
  constructor
  · intro h; have := mem_intRange.mp h; omega
  · intro h; exact mem_intRange.mpr (by omega)

/-- Pairwise on the product traversal from pairwise facts on each axis. -/
theorem pairwise_prodList {ys xs : List Int} {R : (Int × Int) → (Int × Int) → Prop}
    (hy : ys.Pairwise (fun j1 j2 => ∀ i1 ∈ xs, ∀ i2 ∈ xs, R (j1, i1) (j2, i2)))
    (hx : ∀ j ∈ ys, xs.Pairwise (fun i1 i2 => R (j, i1) (j, i2))) :
    (ys.flatMap (fun j => xs.map (fun i => (j, i)))).Pairwise R := by
  rw [List.pairwise_flatMap]
  refine ⟨fun j hj => ?_, ?_⟩
  · rw [List.pairwise_map]
    exact hx j hj
  · refine hy.imp ?_
    intro j1 j2 h p hp q hq
    rw [List.mem_map] at hp hq
    obtain ⟨i1, hi1, rfl⟩ := hp
    obtain ⟨i2, hi2, rfl⟩ := hq
    exact h i1 hi1 i2 hi2

/-- Enrich an ordering `Pairwise` with membership bounds. -/
theorem pairwise_bounded {l : List Int} {n : Int} (hmem : ∀ x ∈ l, 0 ≤ x ∧ x < n)
    {O : Int → Int → Prop} (hord : l.Pairwise O) :
    l.Pairwise (fun a b => (0 ≤ a ∧ a < n) ∧ (0 ≤ b ∧ b < n) ∧ O a b) := by
  induction l with
  | nil => exact List.Pairwise.nil
  | cons a t ih =>
    obtain ⟨hh, ht⟩ := List.pairwise_cons.mp hord
    refine List.pairwise_cons.mpr ⟨fun b hb => ?_, ih (fun x hx => hmem x (List.mem_cons_of_mem a hx)) ht⟩
    exact ⟨hmem a (List.mem_cons_self a t), hmem b (List.mem_cons_of_mem a hb), hh b hb⟩

/-- Inside all bounds, the bounds-unchecked generated step coincides with the
checked naive step. -/
theorem genStep_eq_bitbltStep {same : Bool} {src d : Bitmap}
    {dstX dstY srcX srcY op : Int} {yx : Int × Int}
    (hS : InRange (if same then d else src) (srcX + yx.2) (srcY + yx.1))
    (hD : InRange d (dstX + yx.2) (dstY + yx.1)) :
    genStep same src dstX dstY srcX srcY op d yx
      = bitbltStep same src dstX dstY srcX srcY op d yx := by
  obtain ⟨hs1, hs2, hs3, hs4⟩ := hS
  obtain ⟨hd1, hd2, hd3, hd4⟩ := hD
  have hA : ¬(srcX + yx.2 < 0 ∨ srcX + yx.2 ≥ (if same then d else src).width ∨
      srcY + yx.1 < 0 ∨ srcY + yx.1 ≥ (if same then d else src).height) := by
    push_neg
    exact ⟨hs1, hs2, hs3, hs4⟩
  have hB : ¬(dstX + yx.2 < 0 ∨ dstX + yx.2 ≥ d.width ∨
      dstY + yx.1 < 0 ∨ dstY + yx.1 ≥ d.height) := by
    push_neg
    exact ⟨hd1, hd2, hd3, hd4⟩
  unfold genStep bitbltStep getPixel setPixel
  dsimp only
  simp only [if_neg hA, if_neg hB]

theorem InRange_congr {b b' : Bitmap} (hw : b'.width = b.width) (hh : b'.height = b.height)
    {x y : Int} (h : InRange b x y) : InRange b' x y := by
  obtain ⟨h1, h2, h3, h4⟩ := h
  exact ⟨h1, by rw [hw]; exact h2, h3, by rw [hh]; exact h4⟩

/-- The generated fold agrees with the naive fold while every step stays in
bounds. -/
theorem genFold_eq_blitFold {same : Bool} {src d : Bitmap} (hwf : d.WF)
    {dstX dstY srcX srcY op : Int} {L : List (Int × Int)}
    (hS : ∀ p ∈ L, InRange (if same then d else src) (srcX + p.2) (srcY + p.1))
    (hD : ∀ p ∈ L, InRange d (dstX + p.2) (dstY + p.1)) :
    L.foldl (genStep same src dstX dstY srcX srcY op) d
      = blitFold same src dstX dstY srcX srcY op d L := by
  induction L generalizing d with
  | nil => rfl
  | cons a t ih =>
    rw [blitFold, List.foldl_cons, List.foldl_cons, ← blitFold]
    rw [genStep_eq_bitbltStep (hS a (List.mem_cons_self a t)) (hD a (List.mem_cons_self a t))]
    have hwf1 := bitbltStep_WF hwf same src dstX dstY srcX srcY op a
    have hwd := bitbltStep_width same src dstX dstY srcX srcY op d a
    have hhd := bitbltStep_height same src dstX dstY srcX srcY op d a
    refine ih hwf1 ?_ ?_
    · intro p hp
      have := hS p (List.mem_cons_of_mem a hp)
      cases same with
      | false => exact this
      | true => exact InRange_congr hwd hhd this
    · intro p hp
      exact InRange_congr hwd hhd (hD p (List.mem_cons_of_mem a hp))

/-- The clipped width `actualWidth` computed identically by `bitblt` and
`generateBitBltFunction`. -/
def actualW (dst : Bitmap) (dstX width : Int) (src : Bitmap) (srcX : Int) : Int :=
  min (min (srcX + width) src.width - srcX) (min (dstX + width) dst.width - dstX)

/-- The clipped height `actualHeight`. -/
def actualH (dst : Bitmap) (dstY height : Int) (src : Bitmap) (srcY : Int) : Int :=
  min (min (srcY + height) src.height - srcY) (min (dstY + height) dst.height - dstY)

theorem bitblt_eq_fold {same : Bool} {dst src : Bitmap}
    {dstX dstY width height srcX srcY op : Int} (h : ¬(width ≤ 0 ∨ height ≤ 0)) :
    bitblt same dst dstX dstY width height src srcX srcY op
      = (src, blitFold same src dstX dstY srcX srcY op dst
          (rowMajor (actualH dst dstY height src srcY) (actualW dst dstX width src srcX))) := by
  unfold bitblt actualW actualH
  rw [if_neg h]
  dsimp only
  refine Prod.ext ?_ ?_
  · exact foldl_pair_fst (fun s b yx => bitbltStep same s dstX dstY srcX srcY op b yx) src dst _
  · exact foldl_pair_snd (fun s b yx => bitbltStep same s dstX dstY srcX srcY op b yx) src dst _

theorem jitBitBlt_eq_fold {same : Bool} {dst src : Bitmap}
    {dstX dstY width height srcX srcY op : Int} (h : ¬(width ≤ 0 ∨ height ≤ 0)) :
    jitBitBlt same dst dstX dstY width height src srcX srcY op
      = (src, (jitPairs same srcX srcY dstX dstY
            (actualW dst dstX width src srcX) (actualH dst dstY height src srcY)).foldl
          (genStep same src dstX dstY srcX srcY op) dst) := by
  unfold jitBitBlt generateBitBltRun actualW actualH
  rw [if_neg h]
  dsimp only
  refine Prod.ext ?_ ?_
  · exact foldl_pair_fst (fun s b yx => genStep same s dstX dstY srcX srcY op b yx) src dst _
  · exact foldl_pair_snd (fun s b yx => genStep same s dstX dstY srcX srcY op b yx) src dst _

theorem jitPairs_false (srcX srcY dstX dstY aw ah : Int) :
    jitPairs false srcX srcY dstX dstY aw ah = rowMajor ah aw := by
  unfold jitPairs jitXParams jitYParams rowMajor loopIdx overlapH overlapV
  norm_num

/-- Core equivalence: with distinct buffers and in-bounds anchors, the code
generated by `generateBitBltFunction` computes exactly the naive `bitblt`. -/
theorem jit_eq_naive_of_distinct {dst src : Bitmap} (hd : dst.WF)
    {dstX dstY width height srcX srcY op : Int}
    (hsx0 : 0 ≤ srcX) (hsx1 : srcX ≤ src.width)
    (hsy0 : 0 ≤ srcY) (hsy1 : srcY ≤ src.height)
    (hdx0 : 0 ≤ dstX) (hdx1 : dstX ≤ dst.width)
    (hdy0 : 0 ≤ dstY) (hdy1 : dstY ≤ dst.height) :
    jitBitBlt false dst dstX dstY width height src srcX srcY op
      = bitblt false dst dstX dstY width height src srcX srcY op := by
  by_cases h : width ≤ 0 ∨ height ≤ 0
  · unfold jitBitBlt bitblt
    rw [if_pos h, if_pos h]
  · rw [jitBitBlt_eq_fold h, bitblt_eq_fold h, jitPairs_false]
    congr 1
    apply genFold_eq_blitFold hd
    · intro p hp
      obtain ⟨⟨hj0, hj1⟩, hi0, hi1⟩ := mem_rowMajor.mp hp
      unfold actualW at hi1
      unfold actualH at hj1
      show InRange src (srcX + p.2) (srcY + p.1)
      exact ⟨by omega, by omega, by omega, by omega⟩
    · intro p hp
      obtain ⟨⟨hj0, hj1⟩, hi0, hi1⟩ := mem_rowMajor.mp hp
      unfold actualW at hi1
      unfold actualH at hj1
      exact ⟨by omega, by omega, by omega, by omega⟩

theorem pairwise_jitX (same : Bool) (srcX dstX aw : Int) :
    (loopIdx (jitXParams same srcX dstX aw)).Pairwise (fun a b =>
      (0 ≤ a ∧ a < aw) ∧ (0 ≤ b ∧ b < aw) ∧
        (if overlapH same srcX dstX aw ∧ srcX < dstX then b < a else a < b)) := by
  unfold jitXParams
  by_cases hc : overlapH same srcX dstX aw ∧ srcX < dstX
  · rw [if_pos hc]
    refine (pairwise_bounded (fun x hx => mem_loopIdx_reverse.mp hx)
      (pairwise_loopIdx_reverse aw)).imp ?_
    intro a b h
    exact ⟨h.1, h.2.1, by rw [if_pos hc]; exact h.2.2⟩
  · rw [if_neg hc]
    refine (pairwise_bounded (fun x hx => mem_loopIdx_forward.mp hx)
      (pairwise_loopIdx_forward aw)).imp ?_
    intro a b h
    exact ⟨h.1, h.2.1, by rw [if_neg hc]; exact h.2.2⟩

theorem pairwise_jitY (same : Bool) (srcY dstY ah : Int) :
    (loopIdx (jitYParams same srcY dstY ah)).Pairwise (fun a b =>
      (0 ≤ a ∧ a < ah) ∧ (0 ≤ b ∧ b < ah) ∧
        (if overlapV same srcY dstY ah ∧ srcY < dstY then b < a else a < b)) := by
  unfold jitYParams
  by_cases hc : overlapV same srcY dstY ah ∧ srcY < dstY
  · rw [if_pos hc]
    refine (pairwise_bounded (fun x hx => mem_loopIdx_reverse.mp hx)
      (pairwise_loopIdx_reverse ah)).imp ?_
    intro a b h
    exact ⟨h.1, h.2.1, by rw [if_pos hc]; exact h.2.2⟩
  · rw [if_neg hc]
    refine (pairwise_bounded (fun x hx => mem_loopIdx_forward.mp hx)
      (pairwise_loopIdx_forward ah)).imp ?_
    intro a b h
    exact ⟨h.1, h.2.1, by rw [if_neg hc]; exact h.2.2⟩

theorem mem_loopIdx_jitX {same : Bool} {srcX dstX aw x : Int} :
    x ∈ loopIdx (jitXParams same srcX dstX aw) ↔ 0 ≤ x ∧ x < aw := by
  unfold jitXParams
  split
  · exact mem_loopIdx_reverse
  · exact mem_loopIdx_forward

theorem mem_loopIdx_jitY {same : Bool} {srcY dstY ah x : Int} :
    x ∈ loopIdx (jitYParams same srcY dstY ah) ↔ 0 ≤ x ∧ x < ah := by
  unfold jitYParams
  split
  · exact mem_loopIdx_reverse
  · exact mem_loopIdx_forward

theorem mem_jitPairs {same : Bool} {srcX srcY dstX dstY aw ah : Int} {p : Int × Int} :
    p ∈ jitPairs same srcX srcY dstX dstY aw ah
      ↔ (0 ≤ p.1 ∧ p.1 < ah) ∧ (0 ≤ p.2 ∧ p.2 < aw) := by
  unfold jitPairs
  simp only [List.mem_flatMap, List.mem_map]
  constructor
  · rintro ⟨j, hj, i, hi, rfl⟩
    exact ⟨mem_loopIdx_jitY.mp hj, mem_loopIdx_jitX.mp hi⟩
  · rintro ⟨hj, hi⟩
    exact ⟨p.1, mem_loopIdx_jitY.mpr hj, p.2, mem_loopIdx_jitX.mpr hi, rfl⟩

/-- Step ordering safety: in the generated in-place traversal, no earlier
destination cell coincides with a later step's source cell. -/
theorem jitPairs_pairwise_DS {srcX srcY dstX dstY aw ah : Int} :
    (jitPairs true srcX srcY dstX dstY aw ah).Pairwise
      (fun p q => ¬(dstX + p.2 = srcX + q.2 ∧ dstY + p.1 = srcY + q.1)) := by
  unfold jitPairs
  apply pairwise_prodList
  · refine (pairwise_jitY true srcY dstY ah).imp ?_
    intro j1 j2 hj i1 hi1 i2 hi2 hc
    obtain ⟨⟨hj10, hj11⟩, ⟨hj20, hj21⟩, hord⟩ := hj
    by_cases hrev : overlapV true srcY dstY ah ∧ srcY < dstY
    · rw [if_pos hrev] at hord
      omega
    · rw [if_neg hrev] at hord
      unfold overlapV at hrev
      simp only [true_and] at hrev
      omega
  · intro j hj
    refine (pairwise_jitX true srcX dstX aw).imp ?_
    intro i1 i2 hi hc
    obtain ⟨⟨hi10, hi11⟩, ⟨hi20, hi21⟩, hord⟩ := hi
    by_cases hrev : overlapH true srcX dstX aw ∧ srcX < dstX
    · rw [if_pos hrev] at hord
      omega
    · rw [if_neg hrev] at hord
      unfold overlapH at hrev
      simp only [true_and] at hrev
      omega

/-- The generated traversal visits pairwise-distinct offsets. -/
theorem jitPairs_pairwise_DD {same : Bool} {srcX srcY dstX dstY aw ah : Int} :
    (jitPairs same srcX srcY dstX dstY aw ah).Pairwise
      (fun p q => p.1 ≠ q.1 ∨ p.2 ≠ q.2) := by
  unfold jitPairs
  apply pairwise_prodList
  · refine (pairwise_jitY same srcY dstY ah).imp ?_
    intro j1 j2 hj i1 hi1 i2 hi2
    obtain ⟨-, -, hord⟩ := hj
    left
    split at hord <;> omega
  · intro j hj
    refine (pairwise_jitX same srcX dstX aw).imp ?_
    intro i1 i2 hi
    obtain ⟨-, -, hord⟩ := hi
    right
    split at hord <;> omega

theorem rowMajor_pairwise_DD {aw ah : Int} :
    (rowMajor ah aw).Pairwise (fun p q => p.1 ≠ q.1 ∨ p.2 ≠ q.2) := by
  unfold rowMajor
  apply pairwise_prodList
  · refine (pairwise_bounded (fun x hx => mem_intRange.mp hx) (pairwise_intRange ah)).imp ?_
    intro j1 j2 hj i1 hi1 i2 hi2
    left
    omega
  · intro j hj
    refine (pairwise_bounded (fun x hx => mem_intRange.mp hx) (pairwise_intRange aw)).imp ?_
    intro i1 i2 hi
    right
    omega

/-! ## Claim theorems -/

/-- C1, counterexample: on one and the same bitmap with an alternating
pattern, copying `[0,3) × [0,1)` one pixel to the right in place makes the
JIT blit produce a pure shift while the naive reference smears — the two
results differ, refuting the claim as stated for the aliased case. -/
theorem spec_C1_counterexample :
    jitBitBlt true ⟨16, 1, 1, [0xAAAA0000]⟩ 1 0 3 1 ⟨16, 1, 1, [0xAAAA0000]⟩ 0 0 BitBltOp.COPY
      ≠ bitblt true ⟨16, 1, 1, [0xAAAA0000]⟩ 1 0 3 1 ⟨16, 1, 1, [0xAAAA0000]⟩ 0 0 BitBltOp.COPY := by
  decide

/-- C1 (amended): for distinct, well-formed bitmaps whose anchor coordinates
lie inside `[0, width] × [0, height]` of their respective bitmaps, the
specialized JIT blit and the naive reference `bitblt` produce identical
results — for every rectangle size and every operator. -/
theorem spec_C1 {dst src : Bitmap} (hd : dst.WF)
    {dstX dstY width height srcX srcY op : Int}
    (hsx0 : 0 ≤ srcX) (hsx1 : srcX ≤ src.width)
    (hsy0 : 0 ≤ srcY) (hsy1 : srcY ≤ src.height)
    (hdx0 : 0 ≤ dstX) (hdx1 : dstX ≤ dst.width)
    (hdy0 : 0 ≤ dstY) (hdy1 : dstY ≤ dst.height) :
    jitBitBlt false dst dstX dstY width height src srcX srcY op
      = bitblt false dst dstX dstY width height src srcX srcY op :=
  jit_eq_naive_of_distinct hd hsx0 hsx1 hsy0 hsy1 hdx0 hdx1 hdy0 hdy1

/-- C1, witness: a concrete in-bounds XOR blit between two distinct bitmaps
on which the amended claim's hypotheses hold. -/
theorem spec_C1_witness :
    (createBitmap 64 2).WF ∧
      jitBitBlt false (createBitmap 64 2) 9 1 20 3 (createBitmap 96 4) 5 0 BitBltOp.XOR
        = bitblt false (createBitmap 64 2) 9 1 20 3 (createBitmap 96 4) 5 0 BitBltOp.XOR :=
  ⟨by decide,
    @spec_C1 (createBitmap 64 2) (createBitmap 96 4) (by decide) 9 1 20 3 5 0 BitBltOp.XOR
      (by decide) (by decide) (by decide) (by decide)
      (by decide) (by decide) (by decide) (by decide)⟩

set_option maxRecDepth 8192 in
/-- C3 counterexample: an in-place COPY on a 64×4 bitmap with out-of-range
anchors (`dstX = -2`, `srcX = -3`, `width = 66`, `dstY = 2`, `srcY = 0`,
`height = 2`).  The clipped column ranges intersect with `srcX < dstX`, so
the generated code iterates columns right-to-left as the claim says — yet the
result is not a pure shift: the unchecked address arithmetic of the first
(out-of-range) column writes into a different pixel of the shared buffer
(the JS shift-count masking lands `dstPixelX = -2` of row 2 on pixel
`(62, 1)`), clearing source pixel `(62, 1)` before the later step for
destination `(63, 3)` reads it.  Destination pixel `(63, 3) = (dstX + 65,
dstY + 1)` ends at `0` instead of the pre-call value `1` of its source pixel
`(62, 1) = (srcX + 65, srcY + 1)`. -/
theorem spec_C3_counterexample :
    jitXParams true (-3) (-2) 66 = (65, -1, -1) ∧
      getPixel (⟨64, 4, 2, [0, 0, 0, 2, 0, 0, 0, 0]⟩ : Bitmap) 62 1 = 1 ∧
      getPixel (jitBitBlt true (⟨64, 4, 2, [0, 0, 0, 2, 0, 0, 0, 0]⟩ : Bitmap) (-2) 2 66 2
          (⟨64, 4, 2, [0, 0, 0, 2, 0, 0, 0, 0]⟩ : Bitmap) (-3) 0 BitBltOp.COPY).2 63 3
        ≠ getPixel (⟨64, 4, 2, [0, 0, 0, 2, 0, 0, 0, 0]⟩ : Bitmap) 62 1 :=
  ⟨by decide, by decide, by decide⟩

/-- C3 (amended): in an in-place JIT blit, reversal is chosen exactly as
claimed on each axis (right-to-left when the clipped column ranges intersect
with `srcX < dstX`; bottom-to-top when the clipped row ranges intersect with
`srcY < dstY`); and for anchors within `[0, width] × [0, height]` of the
bitmap, every such aliased `COPY` is a pure shift: each destination pixel of
the clipped rectangle receives the pre-call value of its source pixel.  The
anchor bounds are necessary: with out-of-range anchors the generated
unchecked addressing can write a still-unread source pixel of the shared
buffer even under reversed iteration (`spec_C3_counterexample`). -/
theorem spec_C3 {bm : Bitmap} (hwf : bm.WF)
    {dstX dstY width height srcX srcY : Int}
    (hsx0 : 0 ≤ srcX) (hsx1 : srcX ≤ bm.width)
    (hsy0 : 0 ≤ srcY) (hsy1 : srcY ≤ bm.height)
    (hdx0 : 0 ≤ dstX) (hdx1 : dstX ≤ bm.width)
    (hdy0 : 0 ≤ dstY) (hdy1 : dstY ≤ bm.height) :
    (∀ aw : Int, srcX < dstX → dstX < srcX + aw →
      jitXParams true srcX dstX aw = (aw - 1, -1, -1)) ∧
    (∀ ah : Int, srcY < dstY → dstY < srcY + ah →
      jitYParams true srcY dstY ah = (ah - 1, -1, -1)) ∧
    (∀ i j : Int, 0 ≤ i → i < actualW bm dstX width bm srcX →
      0 ≤ j → j < actualH bm dstY height bm srcY →
      getPixel (jitBitBlt true bm dstX dstY width height bm srcX srcY BitBltOp.COPY).2
          (dstX + i) (dstY + j)
        = getPixel bm (srcX + i) (srcY + j)) := by
  refine ⟨?_, ?_, ?_⟩
  · intro aw h1 h2
    unfold jitXParams
    rw [if_pos ⟨⟨rfl, Or.inl ⟨h1, by omega⟩⟩, h1⟩]
  · intro ah h1 h2
    unfold jitYParams
    rw [if_pos ⟨⟨rfl, Or.inl ⟨h1, by omega⟩⟩, h1⟩]
  · intro i j hi0 hi1 hj0 hj1
    by_cases h : width ≤ 0 ∨ height ≤ 0
    · exfalso
      unfold actualW at hi1
      unfold actualH at hj1
      omega
    · rw [jitBitBlt_eq_fold h]
      show getPixel ((jitPairs true srcX srcY dstX dstY _ _).foldl
        (genStep true bm dstX dstY srcX srcY BitBltOp.COPY) bm) _ _ = _
      rw [genFold_eq_blitFold hwf
        (fun p hp => by
          obtain ⟨⟨hj0', hj1'⟩, hi0', hi1'⟩ := mem_jitPairs.mp hp
          unfold actualW at hi1'
          unfold actualH at hj1'
          show InRange bm (srcX + p.2) (srcY + p.1)
          exact ⟨by omega, by omega, by omega, by omega⟩)
        (fun p hp => by
          obtain ⟨⟨hj0', hj1'⟩, hi0', hi1'⟩ := mem_jitPairs.mp hp
          unfold actualW at hi1'
          unfold actualH at hj1'
          exact ⟨by omega, by omega, by omega, by omega⟩)]
      exact blitFold_shift hwf jitPairs_pairwise_DD jitPairs_pairwise_DS
        (fun p hp => by
          obtain ⟨⟨hj0', hj1'⟩, hi0', hi1'⟩ := mem_jitPairs.mp hp
          unfold actualW at hi1'
          unfold actualH at hj1'
          exact ⟨by omega, by omega, by omega, by omega⟩)
        (j, i) (mem_jitPairs.mpr ⟨⟨hj0, hj1⟩, hi0, hi1⟩)

/-- C3, witness: the spec's own scenario — shifting a 10-pixel alternating
pattern one pixel to the right inside one bitmap — with the last shifted
pixel checked. -/
theorem spec_C3_witness :
    (⟨32, 1, 1, [0xAAAAAAAA]⟩ : Bitmap).WF ∧
      getPixel (jitBitBlt true (⟨32, 1, 1, [0xAAAAAAAA]⟩ : Bitmap) 6 0 10 1
          (⟨32, 1, 1, [0xAAAAAAAA]⟩ : Bitmap) 5 0 BitBltOp.COPY).2 (6 + 9) (0 + 0)
        = getPixel (⟨32, 1, 1, [0xAAAAAAAA]⟩ : Bitmap) (5 + 9) (0 + 0) :=
  ⟨by decide,
    (@spec_C3 ⟨32, 1, 1, [0xAAAAAAAA]⟩ (by decide) 6 0 10 1 5 0
        (by decide) (by decide) (by decide) (by decide)
        (by decide) (by decide) (by decide) (by decide)).2.2
      9 0 (by decide) (by decide) (by decide) (by decide)⟩

/-- C4: the claim holds for `bitblt` and `jitBitBlt` (degenerate sizes leave
the bitmaps untouched and reach no generator), but `JitExecutor.execute` has
no degenerate-size check: at `width = 0` it still performs its cache lookup
and, on a cold cache, generates and caches code — the code contradicts the
spec's "no Routine call, no cache lookup" requirement. -/
theorem spec_C4_bug :
    (executeOutcome 0 5 [] "sig").cacheLookups = 1 ∧
      (executeOutcome 0 5 [] "sig").generatedCode = true ∧
      bitblt false (createBitmap 32 1) 0 0 0 5 (createBitmap 32 1) 0 0 BitBltOp.COPY
        = (createBitmap 32 1, createBitmap 32 1) ∧
      jitBitBlt false (createBitmap 32 1) 0 0 0 5 (createBitmap 32 1) 0 0 BitBltOp.COPY
        = (createBitmap 32 1, createBitmap 32 1) := by
  decide

/-- C5: a naive `bitblt` changes no destination pixel outside the clipped
rectangle `[dstX, dstX + actualWidth) × [dstY, dstY + actualHeight)`, for
every call — aliased or not, in or out of bounds. -/
theorem spec_C5 {dst src : Bitmap} (hwf : dst.WF) (same : Bool)
    {dstX dstY width height srcX srcY op cx cy : Int}
    (hout : ¬(dstX ≤ cx ∧ cx < dstX + actualW dst dstX width src srcX ∧
      dstY ≤ cy ∧ cy < dstY + actualH dst dstY height src srcY)) :
    getPixel (bitblt same dst dstX dstY width height src srcX srcY op).2 cx cy
      = getPixel dst cx cy := by
  by_cases h : width ≤ 0 ∨ height ≤ 0
  · unfold bitblt
    rw [if_pos h]
  · rw [bitblt_eq_fold h]
    exact blitFold_frame hwf (fun p hp hc => by
      obtain ⟨⟨hj0, hj1⟩, hi0, hi1⟩ := mem_rowMajor.mp hp
      exact hout ⟨by omega, by omega, by omega, by omega⟩)

/-- C5, witness: an overhanging copy leaves the pixel just left of the
destination rectangle unchanged. -/
theorem spec_C5_witness :
    (⟨32, 2, 1, [0xFFFFFFFF, 0]⟩ : Bitmap).WF ∧
      getPixel (bitblt false (⟨32, 2, 1, [0xFFFFFFFF, 0]⟩ : Bitmap) 4 0 100 100
          (createBitmap 16 1) 0 0 BitBltOp.COPY).2 3 0
        = getPixel (⟨32, 2, 1, [0xFFFFFFFF, 0]⟩ : Bitmap) 3 0 :=
  ⟨by decide,
    @spec_C5 ⟨32, 2, 1, [0xFFFFFFFF, 0]⟩ (createBitmap 16 1) (by decide) false
      4 0 100 100 0 0 BitBltOp.COPY 3 0 (by decide)⟩

/-- C8: with distinct bitmaps, each destination pixel of the clipped
rectangle equals the claimed operator combination of the source pixel with
the pre-call destination pixel (`COPY`: source; `AND`/`OR`/`XOR`: the
respective bitwise combination). -/
theorem spec_C8 {dst src : Bitmap} (hwf : dst.WF)
    {dstX dstY width height srcX srcY op i j : Int}
    (hi0 : 0 ≤ i) (hi1 : i < actualW dst dstX width src srcX)
    (hj0 : 0 ≤ j) (hj1 : j < actualH dst dstY height src srcY)
    (hin : InRange dst (dstX + i) (dstY + j)) :
    getPixel (bitblt false dst dstX dstY width height src srcX srcY op).2
        (dstX + i) (dstY + j)
      = opCombine op (getPixel src (srcX + i) (srcY + j))
          (getPixel dst (dstX + i) (dstY + j)) := by
  by_cases h : width ≤ 0 ∨ height ≤ 0
  · exfalso
    unfold actualW at hi1
    unfold actualH at hj1
    omega
  · rw [bitblt_eq_fold h]
    exact @blitFold_writeonce dst hwf src dstX dstY srcX srcY op _
      rowMajor_pairwise_DD (j, i) (mem_rowMajor.mpr ⟨⟨hj0, hj1⟩, hi0, hi1⟩) hin

/-- C8, witness: an in-bounds OR blit between distinct bitmaps, checked at
offset `(2, 0)` of the rectangle. -/
theorem spec_C8_witness :
    (createBitmap 32 1).WF ∧
      getPixel (bitblt false (createBitmap 32 1) 1 0 8 1
          (⟨32, 1, 1, [0xF0F0F0F0]⟩ : Bitmap) 3 0 BitBltOp.OR).2 (1 + 2) (0 + 0)
        = opCombine BitBltOp.OR
            (getPixel (⟨32, 1, 1, [0xF0F0F0F0]⟩ : Bitmap) (3 + 2) (0 + 0))
            (getPixel (createBitmap 32 1) (1 + 2) (0 + 0)) :=
  ⟨by decide,
    @spec_C8 (createBitmap 32 1) ⟨32, 1, 1, [0xF0F0F0F0]⟩ (by decide)
      1 0 8 1 3 0 BitBltOp.OR 2 0
      (by decide) (by decide) (by decide) (by decide) (by decide)⟩

/-- C9 counterexample: `"constructor"` is not a registered generator, yet
`setDefaultGenerator` does not throw on it — the truthy prototype-chain
lookup `this.generators["constructor"]` finds `Object.prototype.constructor`
— and the default generator is changed to the broken name. -/
theorem spec_C9_counterexample :
    "constructor" ∉ ExecutorState.init.generators ∧
      setDefaultGenerator ExecutorState.init "constructor"
        = Except.ok { ExecutorState.init with defaultGenerator := "constructor" } :=
  ⟨by decide, by unfold setDefaultGenerator; rw [if_pos (Or.inr (by decide))]⟩

/-- C9 (amended): setting the default backend with a name that is neither a
registered generator nor a property inherited from `Object.prototype` fails
with the `Unknown code generator type` error and, throwing before any
assignment, leaves the default generator, the generator table and both code
caches unchanged, so later calls behave as if it never happened; a registered
name succeeds and updates only the default.  However, an unregistered name
that `Object.prototype` provides (such as `"constructor"` or `"toString"`)
slips through the truthy lookup: the call does not throw and sets the default
to that unusable name. -/
theorem spec_C9 (s : ExecutorState) (name : String) :
    (name ∉ s.generators → name ∉ objectProtoKeys →
      setDefaultGenerator s name
        = Except.error ("Unknown code generator type: " ++ name)) ∧
    (name ∈ s.generators →
      setDefaultGenerator s name = Except.ok { s with defaultGenerator := name }) ∧
    (name ∉ s.generators → name ∈ objectProtoKeys →
      setDefaultGenerator s name = Except.ok { s with defaultGenerator := name }) ∧
    (∀ s', setDefaultGenerator s name = Except.ok s' →
      s'.generators = s.generators ∧ s'.jsCacheKeys = s.jsCacheKeys ∧
        s'.wasmCacheKeys = s.wasmCacheKeys ∧ s'.defaultGenerator = name) := by
  refine ⟨fun hno hnp => ?_, fun hyes => ?_, fun hno hp => ?_, fun s' hok => ?_⟩
  · unfold setDefaultGenerator
    rw [if_neg (fun hc => hc.elim hno hnp)]
  · unfold setDefaultGenerator
    rw [if_pos (Or.inl hyes)]
  · unfold setDefaultGenerator
    rw [if_pos (Or.inr hp)]
  · unfold setDefaultGenerator at hok
    by_cases hm : name ∈ s.generators ∨ name ∈ objectProtoKeys
    · rw [if_pos hm] at hok
      cases hok
      exact ⟨rfl, rfl, rfl, rfl⟩
    · rw [if_neg hm] at hok
      cases hok

/-- C9, witness: on the freshly constructed executor, `"native"` (neither
registered nor inherited) is rejected and `"wasm"` is accepted with only the
default changed. -/
theorem spec_C9_witness :
    ("native" ∉ ExecutorState.init.generators) ∧
      ("native" ∉ objectProtoKeys) ∧
      setDefaultGenerator ExecutorState.init "native"
        = Except.error ("Unknown code generator type: " ++ "native") ∧
      ("wasm" ∈ ExecutorState.init.generators) ∧
      setDefaultGenerator ExecutorState.init "wasm"
        = Except.ok { ExecutorState.init with defaultGenerator := "wasm" } :=
  ⟨by decide, by decide,
    (spec_C9 ExecutorState.init "native").1 (by decide) (by decide),
    by decide, (spec_C9 ExecutorState.init "wasm").2.1 (by decide)⟩

/-- C10: neither `bitblt` nor `jitBitBlt` ever writes to the source bitmap
when it is distinct from the destination: the source component of the final
state equals the source passed in, for all coordinates, sizes and operators. -/
theorem spec_C10 (dst src : Bitmap) (dstX dstY width height srcX srcY op : Int) :
    (bitblt false dst dstX dstY width height src srcX srcY op).1 = src ∧
      (jitBitBlt false dst dstX dstY width height src srcX srcY op).1 = src := by
  constructor
  · by_cases h : width ≤ 0 ∨ height ≤ 0
    · unfold bitblt
      rw [if_pos h]
    · rw [bitblt_eq_fold h]
  · by_cases h : width ≤ 0 ∨ height ≤ 0
    · unfold jitBitBlt
      rw [if_pos h]
    · rw [jitBitBlt_eq_fold h]

/-! ## Storage preservation lemmas (no operation resizes in-bounds writes) -/

theorem jsShiftAmt_lt (b : Int) : jsShiftAmt b < 32 := by
  unfold jsShiftAmt
  have h1 : 0 ≤ b % 32 := Int.emod_nonneg b (by norm_num)
  have h2 : b % 32 < 32 := Int.emod_lt_of_pos b (by norm_num)
  omega

/-- A row-word index below the last row and inside the stride stays below the
storage length whenever it is nonnegative. -/
theorem mulRow_lt {h ipr r q : Int} (hipr : 0 ≤ ipr) (hr : r < h) (hq : q < ipr)
    (h0 : 0 ≤ r * ipr + q) : (r * ipr + q).toNat < (h * ipr).toNat := by
  rcases le_or_lt 0 r with hr0 | hr0
  · have h1 : r * ipr ≤ (h - 1) * ipr := mul_le_mul_of_nonneg_right (by omega) hipr
    have h2 : (h - 1) * ipr + ipr = h * ipr := by ring
    omega
  · exfalso
    have h1 : r * ipr ≤ (-1) * ipr := mul_le_mul_of_nonneg_right (by omega) hipr
    omega

theorem genStep_fields (same : Bool) (src : Bitmap) (dstX dstY srcX srcY op : Int)
    (d : Bitmap) (yx : Int × Int) :
    (genStep same src dstX dstY srcX srcY op d yx).width = d.width ∧
    (genStep same src dstX dstY srcX srcY op d yx).height = d.height ∧
    (genStep same src dstX dstY srcX srcY op d yx).intsPerRow = d.intsPerRow := by
  unfold genStep
  exact ⟨rfl, rfl, rfl⟩

theorem genStep_preserves {d : Bitmap} (hwf : d.WF) (same : Bool) (src : Bitmap)
    {dstX dstY : Int} (srcX srcY op : Int) {yx : Int × Int}
    (hx : dstX + yx.2 < d.width) (hy : dstY + yx.1 < d.height) :
    (genStep same src dstX dstY srcX srcY op d yx).data.length = d.data.length ∧
      (genStep same src dstX dstY srcX srcY op d yx).WF := by
  have hwle := hwf.width_le
  have hipr := hwf.ipr_nonneg
  obtain ⟨h1, h2, h3, h4, h5⟩ := hwf
  have hidx : 0 ≤ (dstY + yx.1) * d.intsPerRow + (dstX + yx.2).fdiv 32 →
      ((dstY + yx.1) * d.intsPerRow + (dstX + yx.2).fdiv 32).toNat < d.data.length := by
    intro h0
    rw [h4]
    exact mulRow_lt hipr hy (by rw [fdiv32_eq]; omega) h0
  have hlt : ∀ w', w' < 2 ^ 32 → ∀ u ∈ writeWord d.data
      ((dstY + yx.1) * d.intsPerRow + (dstX + yx.2).fdiv 32) w', u < 2 ^ 32 :=
    fun w' hw' => writeWord_words_lt h5 hw'
  unfold genStep
  dsimp only
  constructor
  · exact writeWord_length hidx _
  · refine ⟨h1, h2, h3, ?_, ?_⟩
    · rw [writeWord_length hidx _]
      exact h4
    · exact hlt _ (setPixelWord_lt (readWord_lt h5 _) _ (jsShiftAmt_lt _) _)

theorem genFold_preserves {d : Bitmap} (hwf : d.WF) (same : Bool) (src : Bitmap)
    {dstX dstY : Int} (srcX srcY op : Int) {L : List (Int × Int)}
    (hL : ∀ p ∈ L, dstX + p.2 < d.width ∧ dstY + p.1 < d.height) :
    (L.foldl (genStep same src dstX dstY srcX srcY op) d).data.length = d.data.length ∧
      (L.foldl (genStep same src dstX dstY srcX srcY op) d).WF := by
  induction L generalizing d with
  | nil => exact ⟨rfl, hwf⟩
  | cons a t ih =>
    have ha := hL a (List.mem_cons_self a t)
    obtain ⟨hlen, hwf'⟩ := genStep_preserves hwf same src srcX srcY op ha.1 ha.2
    obtain ⟨f1, f2, f3⟩ := genStep_fields same src dstX dstY srcX srcY op d a
    obtain ⟨ihlen, ihwf⟩ := ih hwf' (fun p hp => by
      have := hL p (List.mem_cons_of_mem a hp)
      exact ⟨by rw [f1]; exact this.1, by rw [f2]; exact this.2⟩)
    rw [List.foldl_cons]
    exact ⟨by rw [ihlen, hlen], ihwf⟩

/-- `jitBitBlt` preserves well-formedness and never resizes the destination
storage, for arbitrary arguments. -/
theorem jitBitBlt_preserves {dst : Bitmap} (hwf : dst.WF) (same : Bool) (src : Bitmap)
    (dstX dstY width height srcX srcY op : Int) :
    ((jitBitBlt same dst dstX dstY width height src srcX srcY op).2).data.length
        = dst.data.length ∧
      ((jitBitBlt same dst dstX dstY width height src srcX srcY op).2).WF := by
  by_cases h : width ≤ 0 ∨ height ≤ 0
  · unfold jitBitBlt
    rw [if_pos h]
    exact ⟨rfl, hwf⟩
  · rw [jitBitBlt_eq_fold h]
    refine genFold_preserves hwf same src srcX srcY op (fun p hp => ?_)
    obtain ⟨⟨hj0, hj1⟩, hi0, hi1⟩ := mem_jitPairs.mp hp
    unfold actualW at hi1
    unfold actualH at hj1
    exact ⟨by omega, by omega⟩

theorem bitblt_preserves {dst : Bitmap} (hwf : dst.WF) (same : Bool) (src : Bitmap)
    (dstX dstY width height srcX srcY op : Int) :
    ((bitblt same dst dstX dstY width height src srcX srcY op).2).data.length
        = dst.data.length ∧
      ((bitblt same dst dstX dstY width height src srcX srcY op).2).WF := by
  by_cases h : width ≤ 0 ∨ height ≤ 0
  · unfold bitblt
    rw [if_pos h]
    exact ⟨rfl, hwf⟩
  · rw [bitblt_eq_fold h]
    exact ⟨(blitFold_dims hwf _ _ _ _ _ _ _ _).2.2.2, blitFold_WF hwf _ _ _ _ _ _ _ _⟩

theorem alignedStep_fields (same : Bool) (src : Bitmap) (sRI dRI op : Int)
    (d : Bitmap) (i : Int) :
    (alignedStep same src sRI dRI op d i).width = d.width ∧
    (alignedStep same src sRI dRI op d i).height = d.height ∧
    (alignedStep same src sRI dRI op d i).intsPerRow = d.intsPerRow := by
  unfold alignedStep
  exact ⟨rfl, rfl, rfl⟩

theorem alignedStep_preserves {d src : Bitmap} (hwf : d.WF)
    (hsrc : ∀ u ∈ src.data, u < 2 ^ 32) (same : Bool) (sRI dRI op : Int) {i : Int}
    (hidx : 0 ≤ dRI + i → (dRI + i).toNat < d.data.length) :
    (alignedStep same src sRI dRI op d i).data.length = d.data.length ∧
      (alignedStep same src sRI dRI op d i).WF := by
  obtain ⟨h1, h2, h3, h4, h5⟩ := hwf
  have hval : opCombine op
      (readWord (if same then d else src).data (sRI + i)) (readWord d.data (dRI + i)) < 2 ^ 32 := by
    refine opCombine_lt ?_ (readWord_lt h5 _) op
    split
    · exact readWord_lt h5 _
    · exact readWord_lt hsrc _
  unfold alignedStep
  dsimp only
  refine ⟨writeWord_length hidx _, h1, h2, h3, ?_, ?_⟩
  · rw [writeWord_length hidx _]
    exact h4
  · intro u hu
    exact writeWord_words_lt h5 hval u hu

theorem alignedRow_preserves {d src : Bitmap} (hwf : d.WF)
    (hsrc : ∀ u ∈ src.data, u < 2 ^ 32) (same : Bool) (sRI dRI op : Int)
    {iList : List Int}
    (hIdx : ∀ i ∈ iList, 0 ≤ dRI + i → (dRI + i).toNat < d.data.length) :
    (iList.foldl (alignedStep same src sRI dRI op) d).data.length = d.data.length ∧
      (iList.foldl (alignedStep same src sRI dRI op) d).WF ∧
      (iList.foldl (alignedStep same src sRI dRI op) d).width = d.width ∧
      (iList.foldl (alignedStep same src sRI dRI op) d).height = d.height ∧
      (iList.foldl (alignedStep same src sRI dRI op) d).intsPerRow = d.intsPerRow := by
  induction iList generalizing d with
  | nil => exact ⟨rfl, hwf, rfl, rfl, rfl⟩
  | cons a t ih =>
    have ha := hIdx a (List.mem_cons_self a t)
    obtain ⟨hlen, hwf'⟩ := alignedStep_preserves hwf hsrc same sRI dRI op ha
    obtain ⟨f1, f2, f3⟩ := alignedStep_fields same src sRI dRI op d a
    obtain ⟨i1, i2, i3, i4, i5⟩ := ih hwf' (fun i hi h0 => by
      rw [hlen]
      exact hIdx i (List.mem_cons_of_mem a hi) h0)
    rw [List.foldl_cons]
    exact ⟨by rw [i1, hlen], i2, by rw [i3, f1], by rw [i4, f2], by rw [i5, f3]⟩

theorem alignedRows_preserves {dst src : Bitmap} (hwf : dst.WF)
    (hsrc : ∀ u ∈ src.data, u < 2 ^ 32) (same : Bool)
    (srcY dstY srcStartIntX dstStartIntX op : Int) {yList iList : List Int}
    (hy : ∀ y ∈ yList, dstY + y < dst.height)
    (hi : ∀ i ∈ iList, dstStartIntX + i < dst.intsPerRow) :
    (yList.foldl (fun b y =>
        iList.foldl (alignedStep same src
          ((srcY + y) * (if same then b else src).intsPerRow + srcStartIntX)
          ((dstY + y) * b.intsPerRow + dstStartIntX) op) b) dst).data.length
        = dst.data.length ∧
      (yList.foldl (fun b y =>
        iList.foldl (alignedStep same src
          ((srcY + y) * (if same then b else src).intsPerRow + srcStartIntX)
          ((dstY + y) * b.intsPerRow + dstStartIntX) op) b) dst).WF := by
  induction yList generalizing dst with
  | nil => exact ⟨rfl, hwf⟩
  | cons a t ih =>
    have hrow := @alignedRow_preserves dst src hwf hsrc same
      ((srcY + a) * (if same then dst else src).intsPerRow + srcStartIntX)
      ((dstY + a) * dst.intsPerRow + dstStartIntX) op iList
      (fun i hii h0 => by
        rw [hwf.2.2.2.1]
        have hq := hi i hii
        have hr := hy a (List.mem_cons_self a t)
        have hkey := @mulRow_lt dst.height dst.intsPerRow (dstY + a) (dstStartIntX + i)
          hwf.ipr_nonneg hr hq (by omega)
        omega)
    obtain ⟨r1, r2, r3, r4, r5⟩ := hrow
    rw [List.foldl_cons]
    obtain ⟨o1, o2⟩ := ih r2 (fun y hyy => by rw [r4]; exact hy y (List.mem_cons_of_mem a hyy))
      (fun i hii => by rw [r5]; exact hi i hii)
    constructor
    · rw [o1, r1]
    · exact o2

theorem tmod32_zero {x : Int} (h : x.tmod 32 = 0) : x % 32 = 0 := by
  have := Int.dvd_of_tmod_eq_zero h
  omega

theorem bitbltAligned_eq_fold {same : Bool} {dst src : Bitmap}
    {dstX dstY width height srcX srcY op : Int}
    (hal : dstX.tmod 32 = 0 ∧ srcX.tmod 32 = 0 ∧ width.tmod 32 = 0) :
    bitbltAligned same dst dstX dstY width height src srcX srcY op
      = (src, (intRange height).foldl (fun b y =>
          (intRange (width.fdiv 32)).foldl (alignedStep same src
            ((srcY + y) * (if same then b else src).intsPerRow + srcX.fdiv 32)
            ((dstY + y) * b.intsPerRow + dstX.fdiv 32) op) b) dst) := by
  unfold bitbltAligned
  rw [if_neg (not_not_intro hal)]
  dsimp only
  refine Prod.ext ?_ ?_
  · exact foldl_pair_fst (fun s b y =>
      (intRange (width.fdiv 32)).foldl (alignedStep same s
        ((srcY + y) * (if same then b else s).intsPerRow + srcX.fdiv 32)
        ((dstY + y) * b.intsPerRow + dstX.fdiv 32) op) b) src dst _
  · exact foldl_pair_snd (fun s b y =>
      (intRange (width.fdiv 32)).foldl (alignedStep same s
        ((srcY + y) * (if same then b else s).intsPerRow + srcX.fdiv 32)
        ((dstY + y) * b.intsPerRow + dstX.fdiv 32) op) b) src dst _

theorem jitBitBltAligned_eq_fold {same : Bool} {dst src : Bitmap}
    {dstX dstY width height srcX srcY op : Int}
    (hal : dstX.tmod 32 = 0 ∧ srcX.tmod 32 = 0 ∧ width.tmod 32 = 0) :
    jitBitBltAligned same dst dstX dstY width height src srcX srcY op
      = (src, (loopIdx (if overlapVRows same srcY dstY height ∧ srcY < dstY
            then (height - 1, -1, -1) else (0, height, 1))).foldl (fun b y =>
          (loopIdx (if overlapHWords same (srcX.fdiv 32) (dstX.fdiv 32) (width.fdiv 32)
                ∧ srcX.fdiv 32 < dstX.fdiv 32
              then (width.fdiv 32 - 1, -1, -1) else (0, width.fdiv 32, 1))).foldl
            (alignedStep same src
              ((srcY + y) * (if same then b else src).intsPerRow + srcX.fdiv 32)
              ((dstY + y) * b.intsPerRow + dstX.fdiv 32) op) b) dst) := by
  unfold jitBitBltAligned
  rw [if_neg (not_not_intro hal)]
  dsimp only
  refine Prod.ext ?_ ?_
  · exact foldl_pair_fst (fun s b y =>
      (loopIdx (if overlapHWords same (srcX.fdiv 32) (dstX.fdiv 32) (width.fdiv 32)
            ∧ srcX.fdiv 32 < dstX.fdiv 32
          then (width.fdiv 32 - 1, -1, -1) else (0, width.fdiv 32, 1))).foldl
        (alignedStep same s
          ((srcY + y) * (if same then b else s).intsPerRow + srcX.fdiv 32)
          ((dstY + y) * b.intsPerRow + dstX.fdiv 32) op) b) src dst _
  · exact foldl_pair_snd (fun s b y =>
      (loopIdx (if overlapHWords same (srcX.fdiv 32) (dstX.fdiv 32) (width.fdiv 32)
            ∧ srcX.fdiv 32 < dstX.fdiv 32
          then (width.fdiv 32 - 1, -1, -1) else (0, width.fdiv 32, 1))).foldl
        (alignedStep same s
          ((srcY + y) * (if same then b else s).intsPerRow + srcX.fdiv 32)
          ((dstY + y) * b.intsPerRow + dstX.fdiv 32) op) b) src dst _

theorem mem_loopIdx_dir {c : Prop} [Decidable c] {n x : Int} :
    x ∈ loopIdx (if c then (n - 1, -1, -1) else (0, n, 1)) ↔ 0 ≤ x ∧ x < n := by
  split
  · exact mem_loopIdx_reverse
  · exact mem_loopIdx_forward

theorem bitbltAligned_preserves {dst src : Bitmap} (hd : dst.WF) (hs : src.WF)
    (same : Bool) {dstX dstY width height : Int} (srcX srcY op : Int)
    (hx0 : 0 ≤ dstX) (hx1 : dstX + width ≤ dst.width) (hy1 : dstY + height ≤ dst.height) :
    ((bitbltAligned same dst dstX dstY width height src srcX srcY op).2).data.length
        = dst.data.length ∧
      ((bitbltAligned same dst dstX dstY width height src srcX srcY op).2).WF := by
  by_cases hal : dstX.tmod 32 = 0 ∧ srcX.tmod 32 = 0 ∧ width.tmod 32 = 0
  · rw [bitbltAligned_eq_fold hal]
    have hwle := hd.width_le
    have hdx := tmod32_zero hal.1
    have hw := tmod32_zero hal.2.2
    refine alignedRows_preserves hd hs.2.2.2.2 same srcY dstY (srcX.fdiv 32) (dstX.fdiv 32) op
      (fun y hy => ?_) (fun i hi => ?_)
    · have := mem_intRange.mp hy
      omega
    · have := mem_intRange.mp hi
      rw [fdiv32_eq] at this ⊢
      omega
  · unfold bitbltAligned
    rw [if_pos hal]
    exact bitblt_preserves hd same src dstX dstY width height srcX srcY op

theorem jitBitBltAligned_preserves {dst src : Bitmap} (hd : dst.WF) (hs : src.WF)
    (same : Bool) {dstX dstY width height : Int} (srcX srcY op : Int)
    (hx0 : 0 ≤ dstX) (hx1 : dstX + width ≤ dst.width) (hy1 : dstY + height ≤ dst.height) :
    ((jitBitBltAligned same dst dstX dstY width height src srcX srcY op).2).data.length
        = dst.data.length ∧
      ((jitBitBltAligned same dst dstX dstY width height src srcX srcY op).2).WF := by
  by_cases hal : dstX.tmod 32 = 0 ∧ srcX.tmod 32 = 0 ∧ width.tmod 32 = 0
  · rw [jitBitBltAligned_eq_fold hal]
    have hwle := hd.width_le
    have hdx := tmod32_zero hal.1
    have hw := tmod32_zero hal.2.2
    refine alignedRows_preserves hd hs.2.2.2.2 same srcY dstY (srcX.fdiv 32) (dstX.fdiv 32) op
      (fun y hy => ?_) (fun i hi => ?_)
    · rcases mem_loopIdx_dir.mp hy with ⟨h0, h1⟩
      omega
    · rcases mem_loopIdx_dir.mp hi with ⟨h0, h1⟩
      rw [fdiv32_eq] at h1 ⊢
      omega
  · unfold jitBitBltAligned
    rw [if_pos hal]
    exact jitBitBlt_preserves hd same src dstX dstY width height srcX srcY op

theorem createBitmap_WF {w h : Int} (hw : 0 ≤ w) (hh : 0 ≤ h) : (createBitmap w h).WF := by
  unfold createBitmap Bitmap.WF
  refine ⟨hw, hh, rfl, by simp, ?_⟩
  intro u hu
  rw [List.eq_of_mem_replicate hu]
  norm_num

theorem setPixelColsFold_preserves {d : Bitmap} (hwf : d.WF) (v : Nat) (row : Int)
    (cols : List Int) :
    (cols.foldl (fun b' col => setPixel b' col row v) d).data.length = d.data.length ∧
      (cols.foldl (fun b' col => setPixel b' col row v) d).WF ∧
      (cols.foldl (fun b' col => setPixel b' col row v) d).width = d.width ∧
      (cols.foldl (fun b' col => setPixel b' col row v) d).height = d.height := by
  induction cols generalizing d with
  | nil => exact ⟨rfl, hwf, rfl, rfl⟩
  | cons a t ih =>
    obtain ⟨i1, i2, i3, i4⟩ := ih (setPixel_WF hwf a row v)
    rw [List.foldl_cons]
    exact ⟨by rw [i1, setPixel_length hwf], i2,
      by rw [i3, setPixel_width], by rw [i4, setPixel_height]⟩

theorem fillRect_preserves {bm : Bitmap} (hwf : bm.WF) (x y width height : Int) (v : Nat) :
    (fillRect bm x y width height v).data.length = bm.data.length ∧
      (fillRect bm x y width height v).WF := by
  unfold fillRect
  generalize intsFrom y (min (y + height) bm.height - y).toNat = rows
  induction rows generalizing bm with
  | nil => exact ⟨rfl, hwf⟩
  | cons a t ih =>
    obtain ⟨i1, i2, i3, i4⟩ := setPixelColsFold_preserves hwf v a
      (intsFrom x (min (x + width) bm.width - x).toNat)
    rw [List.foldl_cons]
    obtain ⟨o1, o2⟩ := ih i2
    exact ⟨by rw [o1, i1], o2⟩

theorem fillWordsRow_preserves {d : Bitmap} (hwf : d.WF) (rowIndex : Int) {fv : Nat}
    (hfv : fv < 2 ^ 32) {iL : List Int}
    (hIdx : ∀ i ∈ iL, 0 ≤ rowIndex + i → (rowIndex + i).toNat < d.data.length) :
    ((iL.foldl (fun b' i => { b' with data := writeWord b'.data (rowIndex + i) fv }) d)).data.length
        = d.data.length ∧
      ((iL.foldl (fun b' i => { b' with data := writeWord b'.data (rowIndex + i) fv }) d)).WF ∧
      ((iL.foldl (fun b' i => { b' with data := writeWord b'.data (rowIndex + i) fv }) d)).width = d.width ∧
      ((iL.foldl (fun b' i => { b' with data := writeWord b'.data (rowIndex + i) fv }) d)).height = d.height ∧
      ((iL.foldl (fun b' i => { b' with data := writeWord b'.data (rowIndex + i) fv }) d)).intsPerRow = d.intsPerRow := by
  induction iL generalizing d with
  | nil => exact ⟨rfl, hwf, rfl, rfl, rfl⟩
  | cons a t ih =>
    obtain ⟨h1, h2, h3, h4, h5⟩ := hwf
    have ha := hIdx a (List.mem_cons_self a t)
    have hlen : (writeWord d.data (rowIndex + a) fv).length = d.data.length :=
      writeWord_length ha fv
    have hwf' : ({ d with data := writeWord d.data (rowIndex + a) fv } : Bitmap).WF := by
      refine ⟨h1, h2, h3, ?_, ?_⟩
      · show (writeWord d.data (rowIndex + a) fv).length = _
        rw [hlen]
        exact h4
      · intro u hu
        exact writeWord_words_lt h5 hfv u hu
    obtain ⟨i1, i2, i3, i4, i5⟩ := ih hwf' (fun i hi h0 => by
      show _ < (writeWord d.data (rowIndex + a) fv).length
      rw [hlen]
      exact hIdx i (List.mem_cons_of_mem a hi) h0)
    rw [List.foldl_cons]
    refine ⟨by rw [i1]; exact hlen, i2, i3, i4, i5⟩

theorem fillRectAligned_preserves {bm : Bitmap} (hwf : bm.WF) (x y width height : Int)
    (v : Nat) :
    (fillRectAligned bm x y width height v).data.length = bm.data.length ∧
      (fillRectAligned bm x y width height v).WF := by
  unfold fillRectAligned
  split
  · exact fillRect_preserves hwf x y width height v
  · dsimp only
    have hfv : (if v = 1 then mask32 else 0) < 2 ^ 32 := by
      split
      · norm_num [mask32]
      · norm_num
    generalize hrows : intRange (min height (bm.height - y)) = rows
    have hrowmem : ∀ r ∈ rows, y + r < bm.height := by
      intro r hr
      rw [← hrows] at hr
      have := mem_intRange.mp hr
      omega
    clear hrows
    induction rows generalizing bm with
    | nil => exact ⟨rfl, hwf⟩
    | cons a t ih =>
      have hipr := hwf.ipr_nonneg
      obtain ⟨i1, i2, i3, i4, i5⟩ := @fillWordsRow_preserves bm hwf
        ((y + a) * bm.intsPerRow + x.fdiv 32) (if v = 1 then mask32 else 0) hfv
        (intRange (min (width.fdiv 32) (bm.intsPerRow - x.fdiv 32)))
        (fun i hi h0 => by
          have hib := mem_intRange.mp hi
          rw [hwf.2.2.2.1]
          have hkey := @mulRow_lt bm.height bm.intsPerRow (y + a) (x.fdiv 32 + i)
            hipr (hrowmem a (List.mem_cons_self a t)) (by omega) (by omega)
          omega)
      rw [List.foldl_cons]
      obtain ⟨o1, o2⟩ := ih i2 (fun r hr => by
        rw [i4]
        exact hrowmem r (List.mem_cons_of_mem a hr))
      constructor
      · rw [o1, i1]
      · exact o2

/-- C2, counterexample: `bitbltAligned` performs no clipping, so an aligned
copy whose destination row lies past the bitmap's last row writes beyond the
end of the `data` array, which in JS resizes it: a `32 × 1` bitmap's storage
grows from 1 to 6 words. -/
theorem spec_C2_counterexample :
    ((bitbltAligned false (createBitmap 32 1) 0 5 32 1 (createBitmap 32 1) 0 0
        BitBltOp.COPY).2).data.length
      ≠ (createBitmap 32 1).data.length := by
  decide

/-- C2 (amended): the invariants hold as claimed for `createBitmap`,
`getPixel`, `setPixel`, `fillRect`, `fillRectAligned` and `bitblt` with
arbitrary arguments; for `jitBitBlt` whenever its generated `!==` loops
terminate (degenerate sizes, or nonnegative clipped sizes — with positive
requested sizes but a negatively clipped width or height the generated loop
never terminates in JS and its unchecked writes grow the array unboundedly);
for the unclipped aligned fast path `bitbltAligned` when the requested
destination rectangle lies within the destination bitmap; and for
`jitBitBltAligned` when additionally the call is aligned with nonnegative
sizes, so that its generated `!==` loops terminate. -/
theorem spec_C2 :
    (∀ (bm : Bitmap) (x y : Int),
      (x < 0 ∨ x ≥ bm.width ∨ y < 0 ∨ y ≥ bm.height) → getPixel bm x y = 0) ∧
    (∀ (bm : Bitmap) (x y : Int) (v : Nat),
      (x < 0 ∨ x ≥ bm.width ∨ y < 0 ∨ y ≥ bm.height) → setPixel bm x y v = bm) ∧
    (∀ w h : Int, 0 ≤ w → 0 ≤ h → (createBitmap w h).WF) ∧
    (∀ (bm : Bitmap), bm.WF → ∀ (x y : Int) (v : Nat),
      (setPixel bm x y v).data.length = bm.data.length ∧ (setPixel bm x y v).WF) ∧
    (∀ (bm : Bitmap), bm.WF → ∀ (x y w h : Int) (v : Nat),
      (fillRect bm x y w h v).data.length = bm.data.length ∧ (fillRect bm x y w h v).WF) ∧
    (∀ (bm : Bitmap), bm.WF → ∀ (x y w h : Int) (v : Nat),
      (fillRectAligned bm x y w h v).data.length = bm.data.length ∧
        (fillRectAligned bm x y w h v).WF) ∧
    (∀ (dst src : Bitmap), dst.WF → ∀ (same : Bool) (dstX dstY w h srcX srcY op : Int),
      ((bitblt same dst dstX dstY w h src srcX srcY op).2).data.length = dst.data.length ∧
        ((bitblt same dst dstX dstY w h src srcX srcY op).2).WF) ∧
    (∀ (dst src : Bitmap), dst.WF → ∀ (same : Bool) (dstX dstY w h srcX srcY op : Int),
      ((w ≤ 0 ∨ h ≤ 0) ∨
        (0 ≤ actualW dst dstX w src srcX ∧ 0 ≤ actualH dst dstY h src srcY)) →
      ((jitBitBlt same dst dstX dstY w h src srcX srcY op).2).data.length = dst.data.length ∧
        ((jitBitBlt same dst dstX dstY w h src srcX srcY op).2).WF) ∧
    (∀ (dst src : Bitmap), dst.WF → src.WF →
      ∀ (same : Bool) (dstX dstY w h srcX srcY op : Int),
      0 ≤ dstX → dstX + w ≤ dst.width → dstY + h ≤ dst.height →
      ((bitbltAligned same dst dstX dstY w h src srcX srcY op).2).data.length
          = dst.data.length ∧
        ((bitbltAligned same dst dstX dstY w h src srcX srcY op).2).WF) ∧
    (∀ (dst src : Bitmap), dst.WF → src.WF →
      ∀ (same : Bool) (dstX dstY w h srcX srcY op : Int),
      dstX.tmod 32 = 0 → srcX.tmod 32 = 0 → w.tmod 32 = 0 → 0 ≤ w → 0 ≤ h →
      0 ≤ dstX → dstX + w ≤ dst.width → dstY + h ≤ dst.height →
      ((jitBitBltAligned same dst dstX dstY w h src srcX srcY op).2).data.length
          = dst.data.length ∧
        ((jitBitBltAligned same dst dstX dstY w h src srcX srcY op).2).WF) := by
  refine ⟨?_, ?_, ?_, ?_, ?_, ?_, ?_, ?_, ?_, ?_⟩
  · intro bm x y h
    exact getPixel_oob h
  · intro bm x y v h
    unfold setPixel
    rw [if_pos h]
  · intro w h hw hh
    exact createBitmap_WF hw hh
  · intro bm hwf x y v
    exact ⟨setPixel_length hwf x y v, setPixel_WF hwf x y v⟩
  · intro bm hwf x y w h v
    exact fillRect_preserves hwf x y w h v
  · intro bm hwf x y w h v
    exact fillRectAligned_preserves hwf x y w h v
  · intro dst src hwf same dstX dstY w h srcX srcY op
    exact bitblt_preserves hwf same src dstX dstY w h srcX srcY op
  · intro dst src hwf same dstX dstY w h srcX srcY op hterm
    exact jitBitBlt_preserves hwf same src dstX dstY w h srcX srcY op
  · intro dst src hd hs same dstX dstY w h srcX srcY op h1 h2 h3
    exact bitbltAligned_preserves hd hs same srcX srcY op h1 h2 h3
  · intro dst src hd hs same dstX dstY w h srcX srcY op ha1 ha2 ha3 hw0 hh0 h1 h2 h3
    exact jitBitBltAligned_preserves hd hs same srcX srcY op h1 h2 h3

set_option maxRecDepth 8192 in
/-- C2, witness: concrete instances of the invariant components — an
out-of-range read returns 0, an out-of-range write is dropped, an in-bounds
aligned blit keeps the storage length, and so do a JIT blit with nonnegative
clipped sizes and an aligned in-bounds JIT blit. -/
theorem spec_C2_witness :
    getPixel (createBitmap 32 2) 40 0 = 0 ∧
      setPixel (createBitmap 32 2) 40 0 1 = createBitmap 32 2 ∧
      ((bitbltAligned false (createBitmap 64 2) 32 0 32 2 (createBitmap 64 2) 0 0
          BitBltOp.COPY).2).data.length = (createBitmap 64 2).data.length ∧
      ((jitBitBlt false (createBitmap 64 2) 8 0 16 2 (createBitmap 64 2) 4 0
          BitBltOp.XOR).2).data.length = (createBitmap 64 2).data.length ∧
      ((jitBitBltAligned false (createBitmap 64 2) 32 0 32 2 (createBitmap 64 2) 0 0
          BitBltOp.COPY).2).data.length = (createBitmap 64 2).data.length :=
  ⟨spec_C2.1 (createBitmap 32 2) 40 0 (by decide),
    spec_C2.2.1 (createBitmap 32 2) 40 0 1 (by decide),
    (spec_C2.2.2.2.2.2.2.2.2.1 (createBitmap 64 2) (createBitmap 64 2) (by decide)
      (by decide) false 32 0 32 2 0 0 BitBltOp.COPY (by decide) (by decide) (by decide)).1,
    (spec_C2.2.2.2.2.2.2.2.1 (createBitmap 64 2) (createBitmap 64 2) (by decide)
      false 8 0 16 2 4 0 BitBltOp.XOR (by decide)).1,
    (spec_C2.2.2.2.2.2.2.2.2.2 (createBitmap 64 2) (createBitmap 64 2) (by decide)
      (by decide) false 32 0 32 2 0 0 BitBltOp.COPY (by decide) (by decide) (by decide)
      (by decide) (by decide) (by decide) (by decide) (by decide)).1⟩

/-! ## Characterisation of the fills (claim C7) -/

/-- The bit stored for a fill/set value (`value === 1` sets, all else clears). -/
def bitVal (v : Nat) : Nat := if v = 1 then 1 else 0

theorem mem_intsFrom {a x : Int} {n : Nat} : x ∈ intsFrom a n ↔ a ≤ x ∧ x < a + n := by
  unfold intsFrom
  simp only [List.mem_map, List.mem_range]
  constructor
  · rintro ⟨k, hk, rfl⟩
    omega
  · rintro ⟨h0, h1⟩
    exact ⟨(x - a).toNat, by omega, by omega⟩

theorem getPixel_setPixel_char {d : Bitmap} (hwf : d.WF) (a b x' y' : Int) (v : Nat) :
    getPixel (setPixel d a b v) x' y'
      = if x' = a ∧ y' = b ∧ InRange d x' y' then bitVal v else getPixel d x' y' := by
  by_cases hc : x' = a ∧ y' = b ∧ InRange d x' y'
  · rw [if_pos hc]
    obtain ⟨rfl, rfl, hin⟩ := hc
    exact getPixel_setPixel_self hwf hin.1 hin.2.1 hin.2.2.1 hin.2.2.2 v
  · rw [if_neg hc]
    by_cases heq : x' = a ∧ y' = b
    · obtain ⟨rfl, rfl⟩ := heq
      have hob : ¬InRange d x' y' := fun h => hc ⟨rfl, rfl, h⟩
      unfold InRange at hob
      push_neg at hob
      unfold setPixel
      rw [if_pos (by
        by_cases h1 : 0 ≤ x'
        · by_cases h2 : x' < d.width
          · by_cases h3 : 0 ≤ y'
            · have := hob h1 h2 h3
              omega
            · omega
          · omega
        · omega)]
    · exact getPixel_setPixel_ne hwf (fun h => heq ⟨h.1, h.2⟩) v

theorem colsFold_char {d : Bitmap} (hwf : d.WF) (v : Nat) (row x' y' : Int)
    (cols : List Int) :
    getPixel (cols.foldl (fun b' col => setPixel b' col row v) d) x' y'
      = if (x' ∈ cols ∧ y' = row ∧ InRange d x' y') then bitVal v
        else getPixel d x' y' := by
  induction cols generalizing d with
  | nil =>
    simp only [List.not_mem_nil, false_and, if_false]
    rfl
  | cons a t ih =>
    rw [List.foldl_cons]
    have hwf1 := setPixel_WF hwf a row v
    rw [ih hwf1]
    have hdim : InRange (setPixel d a row v) x' y' ↔ InRange d x' y' := by
      unfold InRange
      rw [setPixel_width, setPixel_height]
    by_cases h1 : x' ∈ t ∧ y' = row ∧ InRange d x' y'
    · rw [if_pos (by rw [hdim]; exact h1), if_pos ⟨List.mem_cons_of_mem a h1.1, h1.2⟩]
    · rw [if_neg (by rw [hdim]; exact h1)]
      rw [getPixel_setPixel_char hwf a row x' y' v]
      by_cases h2 : x' = a ∧ y' = row ∧ InRange d x' y'
      · rw [if_pos h2, if_pos ⟨h2.1 ▸ List.mem_cons_self a t, h2.2.1, h2.2.2⟩]
      · rw [if_neg h2, if_neg (by
          rintro ⟨hmem, hrow, hin⟩
          rcases List.mem_cons.mp hmem with h | h
          · exact h2 ⟨h, hrow, hin⟩
          · exact h1 ⟨h, hrow, hin⟩)]

theorem fillRect_char {bm : Bitmap} (hwf : bm.WF) (x y width height : Int) (v : Nat)
    (x' y' : Int) :
    getPixel (fillRect bm x y width height v) x' y'
      = if (x ≤ x' ∧ x' < x + width ∧ y ≤ y' ∧ y' < y + height ∧ InRange bm x' y')
        then bitVal v else getPixel bm x' y' := by
  unfold fillRect
  have key : ∀ (rows : List Int) (d : Bitmap), d.WF → d.width = bm.width →
      d.height = bm.height →
      getPixel (rows.foldl (fun b row =>
        (intsFrom x (min (x + width) b.width - x).toNat).foldl
          (fun b' col => setPixel b' col row v) b) d) x' y'
        = if (y' ∈ rows ∧ x ≤ x' ∧ x' < x + width ∧ InRange d x' y')
          then bitVal v else getPixel d x' y' := by
    intro rows
    induction rows with
    | nil =>
      intro d hd hw hh
      simp only [List.not_mem_nil, false_and, if_false]
      rfl
    | cons a t ih =>
      intro d hd hw hh
      rw [List.foldl_cons]
      obtain ⟨c1, c2, c3, c4⟩ := setPixelColsFold_preserves hd v a
        (intsFrom x (min (x + width) d.width - x).toNat)
      rw [ih _ c2 (by rw [c3, hw]) (by rw [c4, hh])]
      have hdim : ∀ b' : Bitmap, b'.width = d.width → b'.height = d.height →
          (InRange b' x' y' ↔ InRange d x' y') := by
        intro b' h1 h2
        unfold InRange
        rw [h1, h2]
      rw [colsFold_char hd v a x' y']
      have hmemc : x' ∈ intsFrom x (min (x + width) d.width - x).toNat
          ↔ (x ≤ x' ∧ x' < x + width ∧ x' < d.width) := by
        rw [mem_intsFrom]
        omega
      by_cases h1 : y' ∈ t ∧ x ≤ x' ∧ x' < x + width ∧ InRange d x' y'
      · rw [if_pos (by rw [hdim _ c3 c4]; exact h1),
          if_pos ⟨List.mem_cons_of_mem a h1.1, h1.2⟩]
      · rw [if_neg (by rw [hdim _ c3 c4]; exact h1)]
        by_cases h2 : x' ∈ intsFrom x (min (x + width) d.width - x).toNat ∧ y' = a ∧
            InRange d x' y'
        · rw [if_pos h2]
          obtain ⟨hm, heq, hin⟩ := h2
          rw [if_pos ⟨by rw [heq]; exact List.mem_cons_self a t,
            (hmemc.mp hm).1, (hmemc.mp hm).2.1, hin⟩]
        · rw [if_neg h2, if_neg (by
            rintro ⟨hmem, hx1, hx2, hin⟩
            rcases List.mem_cons.mp hmem with h | h
            · exact h2 ⟨hmemc.mpr ⟨hx1, hx2, hin.2.1⟩, h, hin⟩
            · exact h1 ⟨h, hx1, hx2, hin⟩)]
  rw [key _ bm hwf rfl rfl]
  have hmemr : y' ∈ intsFrom y (min (y + height) bm.height - y).toNat
      ↔ (y ≤ y' ∧ y' < y + height ∧ y' < bm.height) := by
    rw [mem_intsFrom]
    omega
  by_cases h : y ≤ y' ∧ y' < y + height ∧ y' < bm.height
  · by_cases h2 : x ≤ x' ∧ x' < x + width ∧ InRange bm x' y'
    · rw [if_pos ⟨hmemr.mpr h, h2⟩, if_pos ⟨h2.1, h2.2.1, h.1, h.2.1, h2.2.2⟩]
    · rw [if_neg (fun hc => h2 ⟨hc.2.1, hc.2.2.1, hc.2.2.2⟩),
        if_neg (fun hc => h2 ⟨hc.1, hc.2.1, hc.2.2.2.2⟩)]
  · rw [if_neg (fun hc => h ⟨(hmemr.mp hc.1).1, (hmemr.mp hc.1).2.1, (hmemr.mp hc.1).2.2⟩),
      if_neg (fun hc => h ⟨hc.2.2.1, hc.2.2.2.1, hc.2.2.2.2.2.2.2⟩)]

theorem foldl_fields {α : Type} (f : Bitmap → α → Bitmap)
    (hW : ∀ b i, (f b i).width = b.width) (hH : ∀ b i, (f b i).height = b.height)
    (hI : ∀ b i, (f b i).intsPerRow = b.intsPerRow) (d : Bitmap) (L : List α) :
    (L.foldl f d).width = d.width ∧ (L.foldl f d).height = d.height ∧
      (L.foldl f d).intsPerRow = d.intsPerRow := by
  induction L generalizing d with
  | nil => exact ⟨rfl, rfl, rfl⟩
  | cons a t ih =>
    obtain ⟨i1, i2, i3⟩ := ih (f d a)
    rw [List.foldl_cons]
    exact ⟨by rw [i1, hW], by rw [i2, hH], by rw [i3, hI]⟩

/-- A raw word write changes exactly the pixels of the addressed word. -/
theorem getPixel_writeWord {d : Bitmap} (hipr : 0 ≤ d.intsPerRow) (j : Int) (fv : Nat)
    {x' y' : Int} (hin : InRange d x' y') :
    getPixel ({ d with data := writeWord d.data j fv }) x' y'
      = if j = y' * d.intsPerRow + x'.fdiv 32
        then (if fv.testBit (bitPos x') then 1 else 0) else getPixel d x' y' := by
  obtain ⟨hx0, hx1, hy0, hy1⟩ := hin
  rw [getPixel_in_mk hx0 hx1 hy0 hy1, getPixel_in hx0 hx1 hy0 hy1]
  by_cases hj : j = y' * d.intsPerRow + x'.fdiv 32
  · rw [if_pos hj, hj, readWord_writeWord_self (by
      have h1 : 0 ≤ y' * d.intsPerRow := mul_nonneg hy0 hipr
      have h2 : 0 ≤ x'.fdiv 32 := by rw [fdiv32_eq]; exact Int.ediv_nonneg hx0 (by norm_num)
      omega)]
  · rw [if_neg hj, readWord_writeWord_ne hj]

theorem fillWordsRow_char {d : Bitmap} (hipr : 0 ≤ d.intsPerRow) (rowIndex : Int)
    (fv : Nat) (iL : List Int) {x' y' : Int} (hin : InRange d x' y') :
    getPixel (iL.foldl (fun b' i =>
        { b' with data := writeWord b'.data (rowIndex + i) fv }) d) x' y'
      = if (∃ i ∈ iL, rowIndex + i = y' * d.intsPerRow + x'.fdiv 32)
        then (if fv.testBit (bitPos x') then 1 else 0) else getPixel d x' y' := by
  induction iL generalizing d with
  | nil =>
    simp only [List.not_mem_nil, false_and, exists_false, if_false]
    rfl
  | cons a t ih =>
    rw [List.foldl_cons]
    have hfields : ({ d with data := writeWord d.data (rowIndex + a) fv } : Bitmap).intsPerRow
        = d.intsPerRow := rfl
    have hin1 : InRange ({ d with data := writeWord d.data (rowIndex + a) fv } : Bitmap) x' y' := hin
    rw [@ih { d with data := writeWord d.data (rowIndex + a) fv } hipr hin1]
    rw [getPixel_writeWord hipr (rowIndex + a) fv hin]
    by_cases h1 : ∃ i ∈ t, rowIndex + i = y' * d.intsPerRow + x'.fdiv 32
    · have hcons : ∃ i ∈ a :: t, rowIndex + i = y' * d.intsPerRow + x'.fdiv 32 := by
        obtain ⟨i, hi, he⟩ := h1
        exact ⟨i, List.mem_cons_of_mem a hi, he⟩
      rw [if_pos h1, if_pos hcons]
    · rw [if_neg h1]
      by_cases h2 : rowIndex + a = y' * d.intsPerRow + x'.fdiv 32
      · have hcons : ∃ i ∈ a :: t, rowIndex + i = y' * d.intsPerRow + x'.fdiv 32 :=
          ⟨a, List.mem_cons_self a t, h2⟩
        rw [if_pos h2, if_pos hcons]
      · have hcons : ¬∃ i ∈ a :: t, rowIndex + i = y' * d.intsPerRow + x'.fdiv 32 := by
          rintro ⟨i, hi, he⟩
          rcases List.mem_cons.mp hi with h | h
          · exact h2 (h ▸ he)
          · exact h1 ⟨i, h, he⟩
        rw [if_neg h2, if_neg hcons]

theorem fillAlignedRows_char {bm : Bitmap} (hipr0 : 0 ≤ bm.intsPerRow)
    (y sIX wpr : Int) (fv : Nat) {x' y' : Int} :
    ∀ (rows : List Int) (d : Bitmap), d.intsPerRow = bm.intsPerRow →
      d.width = bm.width → d.height = bm.height → InRange d x' y' →
      getPixel (rows.foldl (fun b row =>
          (intRange (min wpr (b.intsPerRow - sIX))).foldl
            (fun b' i =>
              { b' with data := writeWord b'.data ((y + row) * b.intsPerRow + sIX + i) fv })
            b) d) x' y'
        = if (∃ row ∈ rows, ∃ i ∈ intRange (min wpr (bm.intsPerRow - sIX)),
              (y + row) * bm.intsPerRow + sIX + i = y' * bm.intsPerRow + x'.fdiv 32)
          then (if fv.testBit (bitPos x') then 1 else 0) else getPixel d x' y' := by
  intro rows
  induction rows with
  | nil =>
    intro d h1 h2 h3 hin
    simp only [List.not_mem_nil, false_and, exists_false, if_false]
    rfl
  | cons a t ih =>
    intro d h1 h2 h3 hin
    rw [List.foldl_cons]
    have hfields := foldl_fields
      (fun b' i => { b' with data := writeWord b'.data ((y + a) * d.intsPerRow + sIX + i) fv })
      (fun b i => rfl) (fun b i => rfl) (fun b i => rfl) d
      (intRange (min wpr (d.intsPerRow - sIX)))
    obtain ⟨f1, f2, f3⟩ := hfields
    rw [ih _ (by rw [f3, h1]) (by rw [f1, h2]) (by rw [f2, h3])
      ⟨hin.1, by rw [f1]; exact hin.2.1, hin.2.2.1, by rw [f2]; exact hin.2.2.2⟩]
    rw [fillWordsRow_char (by rw [h1]; exact hipr0) ((y + a) * d.intsPerRow + sIX) fv
      (intRange (min wpr (d.intsPerRow - sIX))) hin]
    rw [h1]
    by_cases hA : ∃ row ∈ t, ∃ i ∈ intRange (min wpr (bm.intsPerRow - sIX)),
        (y + row) * bm.intsPerRow + sIX + i = y' * bm.intsPerRow + x'.fdiv 32
    · have hcons : ∃ row ∈ a :: t, ∃ i ∈ intRange (min wpr (bm.intsPerRow - sIX)),
          (y + row) * bm.intsPerRow + sIX + i = y' * bm.intsPerRow + x'.fdiv 32 := by
        obtain ⟨r, hr, hrest⟩ := hA
        exact ⟨r, List.mem_cons_of_mem a hr, hrest⟩
      rw [if_pos hA, if_pos hcons]
    · rw [if_neg hA]
      by_cases hB : ∃ i ∈ intRange (min wpr (bm.intsPerRow - sIX)),
          (y + a) * bm.intsPerRow + sIX + i = y' * bm.intsPerRow + x'.fdiv 32
      · have hcons : ∃ row ∈ a :: t, ∃ i ∈ intRange (min wpr (bm.intsPerRow - sIX)),
            (y + row) * bm.intsPerRow + sIX + i = y' * bm.intsPerRow + x'.fdiv 32 :=
          ⟨a, List.mem_cons_self a t, hB⟩
        rw [if_pos hB, if_pos hcons]
      · have hcons : ¬∃ row ∈ a :: t, ∃ i ∈ intRange (min wpr (bm.intsPerRow - sIX)),
            (y + row) * bm.intsPerRow + sIX + i = y' * bm.intsPerRow + x'.fdiv 32 := by
          rintro ⟨r, hr, hrest⟩
          rcases List.mem_cons.mp hr with h | h
          · exact hB (h ▸ hrest)
          · exact hA ⟨r, h, hrest⟩
        rw [if_neg hB, if_neg hcons]

/-- C7, counterexample: with `x = -32` (a multiple of 32, so the aligned path
is taken) the aligned fill computes a negative word offset that aliases into
the previous row and sets pixel `(32, 0)`, while `fillRect` — whose
`setPixel` clamps — changes nothing: the claim fails for negative `x`. -/
theorem spec_C7_counterexample :
    getPixel (fillRectAligned (createBitmap 64 2) (-32) 1 32 1 1) 32 0
      ≠ getPixel (fillRect (createBitmap 64 2) (-32) 1 32 1 1) 32 0 := by
  decide

theorem fillAlignedRows_dims (y sIX wpr : Int) (fv : Nat) (rows : List Int) (d : Bitmap) :
    (rows.foldl (fun b row =>
        (intRange (min wpr (b.intsPerRow - sIX))).foldl
          (fun b' i =>
            { b' with data := writeWord b'.data ((y + row) * b.intsPerRow + sIX + i) fv })
          b) d).width = d.width ∧
      (rows.foldl (fun b row =>
        (intRange (min wpr (b.intsPerRow - sIX))).foldl
          (fun b' i =>
            { b' with data := writeWord b'.data ((y + row) * b.intsPerRow + sIX + i) fv })
          b) d).height = d.height := by
  have h := foldl_fields (fun b row =>
      (intRange (min wpr (b.intsPerRow - sIX))).foldl
        (fun b' i =>
          { b' with data := writeWord b'.data ((y + row) * b.intsPerRow + sIX + i) fv })
        b)
    (fun b row => (foldl_fields
      (fun b' i =>
        { b' with data := writeWord b'.data ((y + row) * b.intsPerRow + sIX + i) fv })
      (fun b' i' => rfl) (fun b' i' => rfl) (fun b' i' => rfl) b
      (intRange (min wpr (b.intsPerRow - sIX)))).1)
    (fun b row => (foldl_fields
      (fun b' i =>
        { b' with data := writeWord b'.data ((y + row) * b.intsPerRow + sIX + i) fv })
      (fun b' i' => rfl) (fun b' i' => rfl) (fun b' i' => rfl) b
      (intRange (min wpr (b.intsPerRow - sIX)))).2.1)
    (fun b row => (foldl_fields
      (fun b' i =>
        { b' with data := writeWord b'.data ((y + row) * b.intsPerRow + sIX + i) fv })
      (fun b' i' => rfl) (fun b' i' => rfl) (fun b' i' => rfl) b
      (intRange (min wpr (b.intsPerRow - sIX)))).2.2)
    d rows
  exact ⟨h.1, h.2.1⟩

/-- C7 (amended): for a well-formed bitmap and `0 ≤ x`, `fillRectAligned`
leaves the bitmap in exactly the pixel state `fillRect` produces — it
delegates when `x` or `width` is not a multiple of 32, and otherwise its
whole-word writes of `0xffffffff`/`0` match the per-pixel fill on every
pixel (the two differ only on the inaccessible padding bits of the last
word of a row). -/
theorem spec_C7 {bm : Bitmap} (hwf : bm.WF) {x : Int} (hx : 0 ≤ x)
    (y width height : Int) (v : Nat) (x' y' : Int) :
    getPixel (fillRectAligned bm x y width height v) x' y'
      = getPixel (fillRect bm x y width height v) x' y' := by
  unfold fillRectAligned
  split
  · rfl
  · rename_i hal
    rw [not_not] at hal
    dsimp only
    have hxal := tmod32_zero hal.1
    have hwal := tmod32_zero hal.2
    have hwle := hwf.width_le
    have hipr0 := hwf.ipr_nonneg
    by_cases hin : InRange bm x' y'
    · rw [fillAlignedRows_char hipr0 y (x.fdiv 32) (width.fdiv 32)
        (if v = 1 then mask32 else 0) (intRange (min height (bm.height - y))) bm
        rfl rfl rfl hin]
      rw [fillRect_char hwf x y width height v x' y']
      have hval : (if (if v = 1 then mask32 else 0).testBit (bitPos x') then 1 else 0)
          = bitVal v := by
        unfold bitVal
        by_cases hv : v = 1
        · rw [if_pos hv, if_pos hv, if_pos (by
            rw [mask32_eq, Nat.testBit_two_pow_sub_one]
            simpa using bitPos_lt x')]
        · rw [if_neg hv, if_neg hv, if_neg (by rw [Nat.zero_testBit]; exact fun h => by cases h)]
      rw [hval]
      obtain ⟨hx0', hx1', hy0', hy1'⟩ := hin
      have hcond : (∃ row ∈ intRange (min height (bm.height - y)),
            ∃ i ∈ intRange (min (width.fdiv 32) (bm.intsPerRow - x.fdiv 32)),
            (y + row) * bm.intsPerRow + x.fdiv 32 + i = y' * bm.intsPerRow + x'.fdiv 32)
          ↔ (x ≤ x' ∧ x' < x + width ∧ y ≤ y' ∧ y' < y + height ∧ InRange bm x' y') := by
        simp only [fdiv32_eq]
        constructor
        · rintro ⟨row, hrow, i, hi, heq⟩
          obtain ⟨hr0, hr1⟩ := mem_intRange.mp hrow
          obtain ⟨hi0, hi1⟩ := mem_intRange.mp hi
          have heq' : (y + row) * bm.intsPerRow + (x / 32 + i)
              = y' * bm.intsPerRow + x' / 32 := by omega
          obtain ⟨hre, hce⟩ := rowcol_unique
            (by omega) (by omega)
            (by omega) (by omega)
            heq'
          refine ⟨by omega, by omega, by omega, by omega, hx0', hx1', hy0', hy1'⟩
        · rintro ⟨ha1, ha2, ha3, ha4, -⟩
          refine ⟨y' - y, mem_intRange.mpr ⟨by omega, by omega⟩,
            x' / 32 - x / 32, mem_intRange.mpr ⟨by omega, by omega⟩, ?_⟩
          have hyy : y + (y' - y) = y' := by ring
          rw [hyy]
          ring
      by_cases hc : x ≤ x' ∧ x' < x + width ∧ y ≤ y' ∧ y' < y + height ∧ InRange bm x' y'
      · rw [if_pos (hcond.mpr hc), if_pos hc]
      · rw [if_neg (fun h => hc (hcond.mp h)), if_neg hc]
    · have hoob : x' < 0 ∨ x' ≥ bm.width ∨ y' < 0 ∨ y' ≥ bm.height := by
        unfold InRange at hin
        by_cases h1 : 0 ≤ x'
        · by_cases h2 : x' < bm.width
          · by_cases h3 : 0 ≤ y'
            · have h4 : ¬y' < bm.height := fun h4 => hin ⟨h1, h2, h3, h4⟩
              omega
            · omega
          · omega
        · omega
      have houter := fillAlignedRows_dims y (x.fdiv 32) (width.fdiv 32)
        (if v = 1 then mask32 else 0) (intRange (min height (bm.height - y))) bm
      rw [getPixel_oob (by rw [houter.1, houter.2]; exact hoob),
        fillRect_char hwf x y width height v x' y',
        if_neg (fun h => hin h.2.2.2.2), getPixel_oob hoob]

theorem spec_C7_witness :
    (createBitmap 64 2).WF ∧ (0 : Int) ≤ 32 ∧
      getPixel (fillRectAligned (createBitmap 64 2) 32 0 32 1 1) 33 0
        = getPixel (fillRect (createBitmap 64 2) 32 0 32 1 1) 33 0 :=
  ⟨by decide, by decide,
    @spec_C7 (createBitmap 64 2) (by decide) 32 (by decide) 0 32 1 1 33 0⟩

/-! ## C6: the aligned word-transfer paths against the naive reference

The per-pixel forward pass of `bitblt` fills each destination word from its
top bit downwards; `pMix op s w m` is the destination word after the top `m`
of its 32 bits have been combined (bits `31 … 32-m` hold the word-level
`opCombine`, the rest still hold `w`). -/

def pMix (op : Int) (s w : Nat) (m : Nat) : Nat :=
  (opCombine op s w &&& (mask32 ^^^ (2 ^ (32 - m) - 1))) ||| (w &&& (2 ^ (32 - m) - 1))

theorem pMix_testBit_low {t m : Nat} (ht : t < 32 - m) (op : Int) (s w : Nat) :
    (pMix op s w m).testBit t = w.testBit t := by
  unfold pMix
  rw [Nat.testBit_lor, Nat.testBit_land, Nat.testBit_land, mask32_eq, Nat.testBit_xor,
    Nat.testBit_two_pow_sub_one, Nat.testBit_two_pow_sub_one]
  have h1 : decide (t < 32 - m) = true := decide_eq_true ht
  have h2 : decide (t < 32) = true := decide_eq_true (by omega)
  rw [h1, h2]
  simp

theorem pMix_testBit_high {t m : Nat} (ht1 : 32 - m ≤ t) (ht2 : t < 32) (op : Int) (s w : Nat) :
    (pMix op s w m).testBit t = (opCombine op s w).testBit t := by
  unfold pMix
  rw [Nat.testBit_lor, Nat.testBit_land, Nat.testBit_land, mask32_eq, Nat.testBit_xor,
    Nat.testBit_two_pow_sub_one, Nat.testBit_two_pow_sub_one]
  have h1 : decide (t < 32 - m) = false := decide_eq_false (by omega)
  have h2 : decide (t < 32) = true := decide_eq_true ht2
  rw [h1, h2]
  simp

theorem pMix_testBit_ge {t : Nat} (ht : 32 ≤ t) (op : Int) (s w : Nat) (m : Nat) :
    (pMix op s w m).testBit t = false := by
  unfold pMix
  rw [Nat.testBit_lor, Nat.testBit_land, Nat.testBit_land, mask32_eq, Nat.testBit_xor,
    Nat.testBit_two_pow_sub_one, Nat.testBit_two_pow_sub_one]
  have h1 : decide (t < 32 - m) = false := decide_eq_false (by omega)
  have h2 : decide (t < 32) = false := decide_eq_false (by omega)
  rw [h1, h2]
  simp

theorem and_mask32_eq {w : Nat} (hw : w < 2 ^ 32) : w &&& mask32 = w := by
  apply Nat.eq_of_testBit_eq
  intro t
  rw [Nat.testBit_land, mask32_eq, Nat.testBit_two_pow_sub_one]
  by_cases ht : t < 32
  · rw [decide_eq_true ht]
    simp
  · rw [decide_eq_false ht]
    have : w.testBit t = false := Nat.testBit_lt_two_pow
      (lt_of_lt_of_le hw (Nat.pow_le_pow_right (by norm_num) (by omega)))
    simp [this]

theorem pMix_lt (op : Int) (s w : Nat) (m : Nat) : pMix op s w m < 2 ^ 32 := by
  unfold pMix
  have hmask : (2 : Nat) ^ (32 - m) - 1 < 2 ^ 32 := by
    have : (2 : Nat) ^ (32 - m) ≤ 2 ^ 32 := Nat.pow_le_pow_right (by norm_num) (by omega)
    omega
  have hxor : mask32 ^^^ (2 ^ (32 - m) - 1) < 2 ^ 32 :=
    Nat.xor_lt_two_pow (by rw [mask32_eq]; norm_num) hmask
  exact Nat.or_lt_two_pow (Nat.and_lt_two_pow _ hxor) (Nat.and_lt_two_pow _ hmask)

theorem pMix_zero (op : Int) (s : Nat) {w : Nat} (hw : w < 2 ^ 32) : pMix op s w 0 = w := by
  unfold pMix
  have h1 : mask32 ^^^ (2 ^ (32 - 0) - 1) = 0 := by rw [mask32_eq]; norm_num
  rw [h1, Nat.and_zero, Nat.zero_or]
  have h2 : (2 : Nat) ^ (32 - 0) - 1 = mask32 := by rw [mask32_eq]
  rw [h2, and_mask32_eq hw]

theorem pMix_32 (op : Int) {s w : Nat} (hc : opCombine op s w < 2 ^ 32) :
    pMix op s w 32 = opCombine op s w := by
  unfold pMix
  have h1 : (2 : Nat) ^ (32 - 32) - 1 = 0 := by norm_num
  rw [h1, Nat.and_zero, Nat.or_zero, Nat.xor_zero, and_mask32_eq hc]

/-- The pixel-level combination of two bits decides exactly the corresponding
bit of the word-level combination. -/
theorem opCombine_pix_eq_one (op : Int) (s w : Nat) (p : Nat) :
    (opCombine op (if s.testBit p then 1 else 0) (if w.testBit p then 1 else 0) = 1)
      ↔ (opCombine op s w).testBit p = true := by
  rw [opCombine_testBit op s w p]
  have hv := @opCombine_bit (if s.testBit p then 1 else 0) (if w.testBit p then 1 else 0)
    (by split <;> simp) (by split <;> simp) op
  rcases h : opCombine op (if s.testBit p then 1 else 0) (if w.testBit p then 1 else 0) with _ | n
  · simp [Nat.zero_testBit]
  · rw [h] at hv
    split at hv
    · rename_i h1
      rw [h1]
      simp
    · omega

/-- One `setPixel`-style update of the partially combined word at its next
bit (bit `31-m`) advances the partial combination by one bit. -/
theorem pMix_step (op : Int) {s w : Nat} (hs : s < 2 ^ 32) (hw : w < 2 ^ 32)
    {m : Nat} (hm : m < 32) :
    (if opCombine op (if s.testBit (31 - m) then 1 else 0)
          (if w.testBit (31 - m) then 1 else 0) = 1
     then pMix op s w m ||| (1 <<< (31 - m))
     else pMix op s w m &&& (mask32 ^^^ (1 <<< (31 - m))))
      = pMix op s w (m + 1) := by
  have hcl : opCombine op s w < 2 ^ 32 := opCombine_lt hs hw op
  have hpl : pMix op s w m < 2 ^ 32 := pMix_lt op s w m
  by_cases hv : opCombine op (if s.testBit (31 - m) then 1 else 0)
      (if w.testBit (31 - m) then 1 else 0) = 1
  · rw [if_pos hv]
    have hbit : (opCombine op s w).testBit (31 - m) = true :=
      (opCombine_pix_eq_one op s w (31 - m)).mp hv
    apply Nat.eq_of_testBit_eq
    intro t
    rw [testBit_or_shift]
    by_cases ht : t = 31 - m
    · subst ht
      rw [@pMix_testBit_high (31 - m) (m + 1) (by omega) (by omega) op s w, hbit]
      simp
    · rw [decide_eq_false (fun hc => ht hc.symm)]
      by_cases ht2 : t < 31 - m
      · rw [@pMix_testBit_low t m (by omega) op s w,
          @pMix_testBit_low t (m + 1) (by omega) op s w]
        simp
      · by_cases ht3 : t < 32
        · rw [@pMix_testBit_high t m (by omega) ht3 op s w,
            @pMix_testBit_high t (m + 1) (by omega) ht3 op s w]
          simp
        · rw [@pMix_testBit_ge t (by omega) op s w m,
            @pMix_testBit_ge t (by omega) op s w (m + 1)]
          simp
  · rw [if_neg hv]
    have hbit : (opCombine op s w).testBit (31 - m) = false := by
      rcases h : (opCombine op s w).testBit (31 - m) with _ | _
      · rfl
      · exact absurd ((opCombine_pix_eq_one op s w (31 - m)).mpr h) hv
    apply Nat.eq_of_testBit_eq
    intro t
    rw [testBit_and_not_shift _ _ _ (by omega) hpl]
    by_cases ht : t = 31 - m
    · subst ht
      rw [@pMix_testBit_high (31 - m) (m + 1) (by omega) (by omega) op s w, hbit]
      simp
    · rw [decide_eq_false (fun hc => ht hc.symm)]
      by_cases ht2 : t < 31 - m
      · rw [@pMix_testBit_low t m (by omega) op s w,
          @pMix_testBit_low t (m + 1) (by omega) op s w]
        simp
      · by_cases ht3 : t < 32
        · rw [@pMix_testBit_high t m (by omega) ht3 op s w,
            @pMix_testBit_high t (m + 1) (by omega) ht3 op s w]
          simp
        · rw [@pMix_testBit_ge t (by omega) op s w m,
            @pMix_testBit_ge t (by omega) op s w (m + 1)]
          simp

theorem writeWord_readWord {d : List Nat} {i : Int} (h0 : 0 ≤ i)
    (hl : i.toNat < d.length) : writeWord d i (readWord d i) = d := by
  unfold writeWord readWord
  rw [if_pos h0, if_pos hl, if_pos h0, List.getD_eq_getElem _ _ hl]
  apply List.ext_getElem
  · simp
  · intro n h1 h2
    rw [List.getElem_set]
    split
    · rename_i hn
      subst hn
      rfl
    · rfl

theorem writeWord_writeWord {d : List Nat} {i : Int} (h0 : 0 ≤ i) (v v' : Nat) :
    writeWord (writeWord d i v) i v' = writeWord d i v' := by
  unfold writeWord
  rw [if_pos h0, if_pos h0, if_pos h0]
  by_cases hl : i.toNat < d.length
  · rw [if_pos hl, if_pos (by simpa using hl), List.set_set, if_pos hl]
  · rw [if_neg hl]
    have hlen : (d ++ List.replicate (i.toNat - d.length) 0 ++ [v]).length = i.toNat + 1 := by
      simp
      omega
    rw [if_pos (by omega), List.append_assoc, List.set_append,
      if_neg (by simp; omega)]
    have hrl : (List.replicate (i.toNat - d.length) (0 : Nat)).length = i.toNat - d.length := by
      simp
    rw [List.set_append, if_neg (by rw [hrl]; omega), hrl]
    have : i.toNat - d.length - (i.toNat - d.length) = 0 := by omega
    rw [this, List.append_assoc, if_neg hl]
    rfl

theorem aligned_fdiv {A : Int} (hA : A % 32 = 0) (b : Int) {m : Nat} (hm : m < 32) :
    (A + (32 * b + (m : Int))).fdiv 32 = A.fdiv 32 + b := by
  rw [fdiv32_eq, fdiv32_eq]
  omega

theorem aligned_bitPos {A : Int} (hA : A % 32 = 0) (b : Int) {m : Nat} (hm : m < 32) :
    bitPos (A + (32 * b + (m : Int))) = 31 - m := by
  unfold bitPos
  omega

theorem intRange_nonpos {n : Int} (h : n ≤ 0) : intRange n = [] := by
  unfold intRange
  rw [Int.toNat_of_nonpos h, List.range_zero]
  rfl

theorem foldl_id {α β : Type} (l : List α) (d : β) : l.foldl (fun b _ => b) d = d := by
  induction l with
  | nil => rfl
  | cons a t ih => exact ih

theorem setPixel_mk_in {W H I : Int} {D : List Nat} {x y : Int}
    (hx : 0 ≤ x) (hx2 : x < W) (hy : 0 ≤ y) (hy2 : y < H) (v : Nat) :
    setPixel ⟨W, H, I, D⟩ x y v
      = ⟨W, H, I, (writeWord D (y * I + x.fdiv 32)
          (if v = 1 then readWord D (y * I + x.fdiv 32) ||| (1 <<< bitPos x)
           else readWord D (y * I + x.fdiv 32) &&& (mask32 ^^^ (1 <<< bitPos x))))⟩ := by
  unfold setPixel
  rw [if_neg (by push_neg; exact ⟨hx, hx2, hy, hy2⟩)]
  dsimp only
  rw [jsShiftAmt_eq_bitPos hx]

/-- Processing the top `m` pixels of one aligned 32-pixel block through the
naive per-pixel step leaves the destination word partially combined
(`pMix … m`), whether or not the buffers alias. -/
theorem blockFoldAux {src : Bitmap} (hsrc : ∀ u ∈ src.data, u < 2 ^ 32) (same : Bool)
    (op : Int) {d : Bitmap} (hd : d.WF)
    {dstX dstY srcX srcY y : Int} {nb : Nat}
    (hdx : dstX % 32 = 0) (hsx : srcX % 32 = 0) (hdx0 : 0 ≤ dstX) (hsx0 : 0 ≤ srcX)
    (hxw : dstX + 32 * (nb : Int) + 32 ≤ d.width)
    (hsxw : srcX + 32 * (nb : Int) + 32 ≤ (if same then d else src).width)
    (hy0 : 0 ≤ dstY + y) (hy1 : dstY + y < d.height)
    (hsy0 : 0 ≤ srcY + y) (hsy1 : srcY + y < (if same then d else src).height)
    (m : Nat) :
    m ≤ 32 →
    List.foldl (bitbltStep same src dstX dstY srcX srcY op) d
        ((List.range m).map (fun k : Nat => ((y : Int), 32 * (nb : Int) + (k : Int))))
      = { d with data := (writeWord d.data
            ((dstY + y) * d.intsPerRow + dstX.fdiv 32 + (nb : Int))
            (pMix op
              (readWord (if same then d else src).data
                ((srcY + y) * (if same then d else src).intsPerRow
                  + srcX.fdiv 32 + (nb : Int)))
              (readWord d.data ((dstY + y) * d.intsPerRow + dstX.fdiv 32 + (nb : Int)))
              m)) } := by
  have hd5 : ∀ u ∈ d.data, u < 2 ^ 32 := hd.2.2.2.2
  have hipr0 : 0 ≤ d.intsPerRow := hd.ipr_nonneg
  have hwle : d.width ≤ 32 * d.intsPerRow := hd.width_le
  have hJw := @wordIdx_bounds d hd (dstX + 32 * (nb : Int)) (dstY + y)
    (by omega) (by omega) hy0 hy1
  have hfd0 : (dstX + 32 * (nb : Int)).fdiv 32 = dstX.fdiv 32 + (nb : Int) := by
    rw [fdiv32_eq, fdiv32_eq]; omega
  rw [hfd0] at hJw
  have hJ0 : 0 ≤ (dstY + y) * d.intsPerRow + dstX.fdiv 32 + (nb : Int) := by
    have := hJw.1; omega
  have hJl : ((dstY + y) * d.intsPerRow + dstX.fdiv 32 + (nb : Int)).toNat
      < d.data.length := by
    have h1 := hJw.1
    have h2 := hJw.2
    omega
  have hW0lt : readWord d.data ((dstY + y) * d.intsPerRow + dstX.fdiv 32 + (nb : Int))
      < 2 ^ 32 := readWord_lt hd5 _
  have hS0lt : readWord (if same then d else src).data
      ((srcY + y) * (if same then d else src).intsPerRow + srcX.fdiv 32 + (nb : Int))
      < 2 ^ 32 := by
    cases same
    · exact readWord_lt hsrc _
    · exact readWord_lt hd5 _
  induction m with
  | zero =>
    intro hm
    simp only [List.range_zero, List.map_nil, List.foldl_nil]
    rw [pMix_zero op _ hW0lt, writeWord_readWord hJ0 hJl]
  | succ m ih =>
    intro hm
    have hm' : m < 32 := by omega
    rw [List.range_succ, List.map_append, List.foldl_append, ih (by omega)]
    simp only [List.map_cons, List.map_nil, List.foldl_cons, List.foldl_nil]
    unfold bitbltStep
    dsimp only
    rw [getPixel_writeWord hipr0
        ((dstY + y) * d.intsPerRow + dstX.fdiv 32 + (nb : Int))
        (pMix op
          (readWord (if same then d else src).data
            ((srcY + y) * (if same then d else src).intsPerRow
              + srcX.fdiv 32 + (nb : Int)))
          (readWord d.data ((dstY + y) * d.intsPerRow + dstX.fdiv 32 + (nb : Int)))
          m)
        (show InRange d (dstX + (32 * (nb : Int) + (m : Int))) (dstY + y) by
          unfold InRange
          omega)]
    have hidxd : (dstY + y) * d.intsPerRow + (dstX + (32 * (nb : Int) + (m : Int))).fdiv 32
        = (dstY + y) * d.intsPerRow + dstX.fdiv 32 + (nb : Int) := by
      rw [aligned_fdiv hdx ((nb : Int)) hm']
      ring
    rw [if_pos hidxd.symm, aligned_bitPos hdx ((nb : Int)) hm',
      pMix_testBit_low (show 31 - m < 32 - m by omega)]
    cases same with
    | false =>
      simp only [Bool.false_eq_true, if_false] at hsxw hsy1 hS0lt ⊢
      have hidxs : (srcY + y) * src.intsPerRow + (srcX + (32 * (nb : Int) + (m : Int))).fdiv 32
          = (srcY + y) * src.intsPerRow + srcX.fdiv 32 + (nb : Int) := by
        rw [aligned_fdiv hsx ((nb : Int)) hm']
        ring
      rw [getPixel_in (by omega) (by omega) hsy0 hsy1, hidxs,
        aligned_bitPos hsx ((nb : Int)) hm']
      rw [setPixel_mk_in (by omega) (by omega) hy0 hy1, hidxd, readWord_writeWord_self hJ0,
        aligned_bitPos hdx ((nb : Int)) hm', writeWord_writeWord hJ0,
        pMix_step op hS0lt hW0lt hm']
    | true =>
      simp only [eq_self_iff_true, if_true] at hsxw hsy1 hS0lt ⊢
      have hidxs : (srcY + y) * d.intsPerRow + (srcX + (32 * (nb : Int) + (m : Int))).fdiv 32
          = (srcY + y) * d.intsPerRow + srcX.fdiv 32 + (nb : Int) := by
        rw [aligned_fdiv hsx ((nb : Int)) hm']
        ring
      rw [getPixel_writeWord hipr0
          ((dstY + y) * d.intsPerRow + dstX.fdiv 32 + (nb : Int))
          (pMix op
            (readWord d.data ((srcY + y) * d.intsPerRow + srcX.fdiv 32 + (nb : Int)))
            (readWord d.data ((dstY + y) * d.intsPerRow + dstX.fdiv 32 + (nb : Int)))
            m)
          (show InRange d (srcX + (32 * (nb : Int) + (m : Int))) (srcY + y) by
            unfold InRange
            omega),
        hidxs]
      by_cases hjj : (dstY + y) * d.intsPerRow + dstX.fdiv 32 + (nb : Int)
          = (srcY + y) * d.intsPerRow + srcX.fdiv 32 + (nb : Int)
      · rw [if_pos hjj, aligned_bitPos hsx ((nb : Int)) hm',
          pMix_testBit_low (show 31 - m < 32 - m by omega), ← hjj]
        rw [setPixel_mk_in (by omega) (by omega) hy0 hy1, hidxd, readWord_writeWord_self hJ0,
          aligned_bitPos hdx ((nb : Int)) hm', writeWord_writeWord hJ0,
          pMix_step op hW0lt hW0lt hm']
      · rw [if_neg hjj, getPixel_in (by omega) (by omega) hsy0 hsy1, hidxs,
          aligned_bitPos hsx ((nb : Int)) hm']
        rw [setPixel_mk_in (by omega) (by omega) hy0 hy1, hidxd, readWord_writeWord_self hJ0,
          aligned_bitPos hdx ((nb : Int)) hm', writeWord_writeWord hJ0,
          pMix_step op hS0lt hW0lt hm']

/-- One full aligned 32-pixel block of the naive per-pixel pass equals one
whole-word `alignedStep`. -/
theorem blockFold_eq {src : Bitmap} (hsrc : ∀ u ∈ src.data, u < 2 ^ 32) (same : Bool)
    (op : Int) {d : Bitmap} (hd : d.WF)
    {dstX dstY srcX srcY y : Int} {nb : Nat}
    (hdx : dstX % 32 = 0) (hsx : srcX % 32 = 0) (hdx0 : 0 ≤ dstX) (hsx0 : 0 ≤ srcX)
    (hxw : dstX + 32 * (nb : Int) + 32 ≤ d.width)
    (hsxw : srcX + 32 * (nb : Int) + 32 ≤ (if same then d else src).width)
    (hy0 : 0 ≤ dstY + y) (hy1 : dstY + y < d.height)
    (hsy0 : 0 ≤ srcY + y) (hsy1 : srcY + y < (if same then d else src).height) :
    List.foldl (bitbltStep same src dstX dstY srcX srcY op) d
        ((List.range 32).map (fun k : Nat => ((y : Int), 32 * (nb : Int) + (k : Int))))
      = alignedStep same src
          ((srcY + y) * (if same then d else src).intsPerRow + srcX.fdiv 32)
          ((dstY + y) * d.intsPerRow + dstX.fdiv 32) op d (nb : Int) := by
  have hd5 : ∀ u ∈ d.data, u < 2 ^ 32 := hd.2.2.2.2
  have hW0lt : readWord d.data ((dstY + y) * d.intsPerRow + dstX.fdiv 32 + (nb : Int))
      < 2 ^ 32 := readWord_lt hd5 _
  have hS0lt : readWord (if same then d else src).data
      ((srcY + y) * (if same then d else src).intsPerRow + srcX.fdiv 32 + (nb : Int))
      < 2 ^ 32 := by
    cases same
    · exact readWord_lt hsrc _
    · exact readWord_lt hd5 _
  rw [blockFoldAux hsrc same op hd hdx hsx hdx0 hsx0 hxw hsxw hy0 hy1 hsy0 hsy1 32
    (le_refl 32)]
  unfold alignedStep
  dsimp only
  rw [pMix_32 op (opCombine_lt hS0lt hW0lt op)]

/-- One aligned row: `32·n` naive pixel steps equal `n` whole-word steps. -/
theorem rowFold_eq {src : Bitmap} (hsrc : ∀ u ∈ src.data, u < 2 ^ 32) (same : Bool)
    (op : Int) {dstX dstY srcX srcY y : Int}
    (hdx : dstX % 32 = 0) (hsx : srcX % 32 = 0) (hdx0 : 0 ≤ dstX) (hsx0 : 0 ≤ srcX) :
    ∀ (n : Nat) {d : Bitmap}, d.WF →
      dstX + 32 * (n : Int) ≤ d.width →
      srcX + 32 * (n : Int) ≤ (if same then d else src).width →
      0 ≤ dstY + y → dstY + y < d.height →
      0 ≤ srcY + y → srcY + y < (if same then d else src).height →
      List.foldl (bitbltStep same src dstX dstY srcX srcY op) d
          ((List.range (32 * n)).map (fun k : Nat => ((y : Int), (k : Int))))
        = List.foldl (alignedStep same src
            ((srcY + y) * (if same then d else src).intsPerRow + srcX.fdiv 32)
            ((dstY + y) * d.intsPerRow + dstX.fdiv 32) op) d
            ((List.range n).map (fun b : Nat => ((b : Int)))) := by
  intro n
  induction n with
  | zero =>
    intro d hd h1 h2 hy0 hy1 hsy0 hsy1
    simp only [Nat.mul_zero, List.range_zero, List.map_nil, List.foldl_nil]
  | succ n ih =>
    intro d hd h1 h2 hy0 hy1 hsy0 hsy1
    have hcast : ((n + 1 : Nat) : Int) = (n : Int) + 1 := by push_cast; ring
    have hwle := hd.width_le
    have hipr0 := hd.ipr_nonneg
    have hpres := @alignedRow_preserves d src hd hsrc same
      ((srcY + y) * (if same then d else src).intsPerRow + srcX.fdiv 32)
      ((dstY + y) * d.intsPerRow + dstX.fdiv 32) op
      ((List.range n).map (fun b : Nat => ((b : Int))))
      (fun i hi h0 => by
        obtain ⟨k, hk, hki⟩ := List.mem_map.mp hi
        have hkn : k < n := List.mem_range.mp hk
        have hb := @wordIdx_bounds d hd (dstX + 32 * i) (dstY + y)
          (by omega) (by omega) hy0 hy1
        have hfd : (dstX + 32 * i).fdiv 32 = dstX.fdiv 32 + i := by
          rw [fdiv32_eq, fdiv32_eq]; omega
        rw [hfd] at hb
        omega)
    obtain ⟨p1, p2, p3, p4, p5⟩ := hpres
    have hblock : List.map (fun k : Nat => ((y : Int), (k : Int)))
        (List.map (fun x => 32 * n + x) (List.range 32))
        = List.map (fun k : Nat => ((y : Int), 32 * (n : Int) + (k : Int)))
            (List.range 32) := by
      rw [List.map_map]
      refine List.map_congr_left (fun k hk => ?_)
      show ((y : Int), ((32 * n + k : Nat) : Int)) = ((y : Int), 32 * (n : Int) + (k : Int))
      rw [Prod.mk.injEq]
      exact ⟨rfl, by push_cast; ring⟩
    rw [Nat.mul_succ, List.range_add, List.map_append, List.foldl_append,
      ih hd (by omega) (by omega) hy0 hy1 hsy0 hsy1,
      List.range_succ n, List.map_append, List.foldl_append, hblock]
    simp only [List.map_cons, List.map_nil, List.foldl_cons, List.foldl_nil]
    set Dn : Bitmap := List.foldl (alignedStep same src
        ((srcY + y) * (if same then d else src).intsPerRow + srcX.fdiv 32)
        ((dstY + y) * d.intsPerRow + dstX.fdiv 32) op) d
        (List.map (fun b : Nat => ((b : Int))) (List.range n)) with hDn
    have hw3 : (if same then Dn else src).width = (if same then d else src).width := by
      cases same
      · rfl
      · exact p3
    have hh4 : (if same then Dn else src).height = (if same then d else src).height := by
      cases same
      · rfl
      · exact p4
    have hi5 : (if same then Dn else src).intsPerRow
        = (if same then d else src).intsPerRow := by
      cases same
      · rfl
      · exact p5
    rw [blockFold_eq hsrc same op p2 hdx hsx hdx0 hsx0
        (by rw [p3]; omega)
        (by rw [hw3]; omega)
        hy0 (by rw [p4]; exact hy1) hsy0 (by rw [hh4]; exact hsy1),
      hi5, p5]

/-- All rows: the naive row-major pixel traversal of an aligned in-bounds
rectangle equals the word-level row fold of `bitbltAligned`. -/
theorem rowsFold_eq {src : Bitmap} (hsrc : ∀ u ∈ src.data, u < 2 ^ 32) (same : Bool)
    (op : Int) {dstX dstY srcX srcY : Int}
    (hdx : dstX % 32 = 0) (hsx : srcX % 32 = 0) (hdx0 : 0 ≤ dstX) (hsx0 : 0 ≤ srcX)
    (n : Nat) :
    ∀ (ys : List Int) {d : Bitmap}, d.WF →
      dstX + 32 * (n : Int) ≤ d.width →
      srcX + 32 * (n : Int) ≤ (if same then d else src).width →
      (∀ yv ∈ ys, 0 ≤ dstY + yv ∧ dstY + yv < d.height
        ∧ 0 ≤ srcY + yv ∧ srcY + yv < (if same then d else src).height) →
      List.foldl (bitbltStep same src dstX dstY srcX srcY op) d
          (ys.flatMap (fun yv => (List.range (32 * n)).map (fun k : Nat => (yv, (k : Int)))))
        = ys.foldl (fun b yv =>
            List.foldl (alignedStep same src
              ((srcY + yv) * (if same then b else src).intsPerRow + srcX.fdiv 32)
              ((dstY + yv) * b.intsPerRow + dstX.fdiv 32) op) b
              ((List.range n).map (fun b' : Nat => ((b' : Int))))) d := by
  intro ys
  induction ys with
  | nil =>
    intro d hd h1 h2 hy
    simp only [List.flatMap_nil, List.foldl_nil]
  | cons a t ih =>
    intro d hd h1 h2 hy
    have hwle := hd.width_le
    have hipr0 := hd.ipr_nonneg
    obtain ⟨hy1, hy2, hy3, hy4⟩ := hy a (List.mem_cons_self a t)
    have hpres := @alignedRow_preserves d src hd hsrc same
      ((srcY + a) * (if same then d else src).intsPerRow + srcX.fdiv 32)
      ((dstY + a) * d.intsPerRow + dstX.fdiv 32) op
      ((List.range n).map (fun b' : Nat => ((b' : Int))))
      (fun i hi h0 => by
        obtain ⟨k, hk, hki⟩ := List.mem_map.mp hi
        have hkn : k < n := List.mem_range.mp hk
        have hb := @wordIdx_bounds d hd (dstX + 32 * i) (dstY + a)
          (by omega) (by omega) hy1 hy2
        have hfd : (dstX + 32 * i).fdiv 32 = dstX.fdiv 32 + i := by
          rw [fdiv32_eq, fdiv32_eq]; omega
        rw [hfd] at hb
        omega)
    obtain ⟨p1, p2, p3, p4, p5⟩ := hpres
    rw [List.flatMap_cons, List.foldl_append,
      rowFold_eq hsrc same op hdx hsx hdx0 hsx0 n hd h1 h2 hy1 hy2 hy3 hy4,
      List.foldl_cons]
    set Dn : Bitmap := List.foldl (alignedStep same src
        ((srcY + a) * (if same then d else src).intsPerRow + srcX.fdiv 32)
        ((dstY + a) * d.intsPerRow + dstX.fdiv 32) op) d
        (List.map (fun b' : Nat => ((b' : Int))) (List.range n)) with hDn
    have hw3 : (if same then Dn else src).width = (if same then d else src).width := by
      cases same
      · rfl
      · exact p3
    have hh4 : (if same then Dn else src).height = (if same then d else src).height := by
      cases same
      · rfl
      · exact p4
    exact ih p2 (by rw [p3]; omega) (by rw [hw3]; omega)
      (fun yv hyv => by
        obtain ⟨q1, q2, q3, q4⟩ := hy yv (List.mem_cons_of_mem a hyv)
        exact ⟨q1, by rw [p4]; exact q2, q3, by rw [hh4]; exact q4⟩)

/-- The aligned fast path agrees with the naive reference on every aligned,
in-bounds transfer, aliased (`src === dst`) or not, for all four operators. -/
theorem bitbltAligned_eq_naive {dst src : Bitmap} (hd : dst.WF) (hs : src.WF)
    {same : Bool} (hsame : same = true → src = dst)
    {dstX dstY width height srcX srcY : Int} (op : Int)
    (hal : dstX.tmod 32 = 0 ∧ srcX.tmod 32 = 0 ∧ width.tmod 32 = 0)
    (hdx0 : 0 ≤ dstX) (hdx1 : dstX + width ≤ dst.width)
    (hdy0 : 0 ≤ dstY) (hdy1 : dstY + height ≤ dst.height)
    (hsx0 : 0 ≤ srcX) (hsx1 : srcX + width ≤ src.width)
    (hsy0 : 0 ≤ srcY) (hsy1 : srcY + height ≤ src.height) :
    bitbltAligned same dst dstX dstY width height src srcX srcY op
      = bitblt same dst dstX dstY width height src srcX srcY op := by
  have hdxe := tmod32_zero hal.1
  have hsxe := tmod32_zero hal.2.1
  have hwe := tmod32_zero hal.2.2
  rw [bitbltAligned_eq_fold hal]
  by_cases hh : height ≤ 0
  · unfold bitblt
    rw [if_pos (Or.inr hh), show intRange height = [] from intRange_nonpos hh,
      List.foldl_nil]
  · by_cases hw : width ≤ 0
    · unfold bitblt
      rw [if_pos (Or.inl hw),
        show intRange (width.fdiv 32) = [] from intRange_nonpos (by rw [fdiv32_eq]; omega)]
      simp only [List.foldl_nil]
      rw [foldl_id]
    · rw [bitblt_eq_fold (by omega)]
      have haw : actualW dst dstX width src srcX = width := by unfold actualW; omega
      have hah : actualH dst dstY height src srcY = height := by unfold actualH; omega
      rw [haw, hah]
      have h32n : 32 * (((width.fdiv 32).toNat : Nat) : Int) = width := by
        rw [fdiv32_eq]
        omega
      have hn32 : width.toNat = 32 * (width.fdiv 32).toNat := by
        rw [fdiv32_eq]
        omega
      have hrow : ∀ j : Int, (intRange width).map (fun i => (j, i))
          = (List.range (32 * (width.fdiv 32).toNat)).map
              (fun k : Nat => (j, (k : Int))) := fun j => by
        unfold intRange
        rw [hn32, List.map_map]
        exact List.map_congr_left (fun k hk => rfl)
      have hcols : intRange (width.fdiv 32)
          = (List.range (width.fdiv 32).toNat).map (fun b' : Nat => ((b' : Int))) := by
        unfold intRange
        exact List.map_congr_left (fun k hk => rfl)
      unfold blitFold rowMajor
      simp only [hrow, hcols]
      refine congrArg (Prod.mk src) ?_
      refine (rowsFold_eq hs.2.2.2.2 same op hdxe hsxe hdx0 hsx0 (width.fdiv 32).toNat
        (intRange height) hd (by omega)
        (by
          cases same
          · show srcX + 32 * (((width.fdiv 32).toNat : Nat) : Int) ≤ src.width
            omega
          · show srcX + 32 * (((width.fdiv 32).toNat : Nat) : Int) ≤ dst.width
            have hsd := hsame rfl
            rw [hsd] at hsx1
            omega)
        (fun yv hyv => by
          obtain ⟨hv0, hv1⟩ := mem_intRange.mp hyv
          refine ⟨by omega, by omega, by omega, ?_⟩
          cases same
          · show srcY + yv < src.height
            omega
          · show srcY + yv < dst.height
            have hsd := hsame rfl
            rw [hsd] at hsy1
            omega)).symm

/-- With distinct buffers the word-level overlap tests of `jitBitBltAligned`
are vacuously false, both generated loops run forward, and the function
computes exactly `bitbltAligned`. -/
theorem jitBitBltAligned_false_eq {dst src : Bitmap}
    {dstX dstY width height srcX srcY op : Int}
    (hal : dstX.tmod 32 = 0 ∧ srcX.tmod 32 = 0 ∧ width.tmod 32 = 0) :
    jitBitBltAligned false dst dstX dstY width height src srcX srcY op
      = bitbltAligned false dst dstX dstY width height src srcX srcY op := by
  rw [jitBitBltAligned_eq_fold hal, bitbltAligned_eq_fold hal]
  have hiT : (if overlapHWords false (srcX.fdiv 32) (dstX.fdiv 32) (width.fdiv 32)
        ∧ srcX.fdiv 32 < dstX.fdiv 32
      then (width.fdiv 32 - 1, -1, -1) else ((0 : Int), width.fdiv 32, (1 : Int)))
      = ((0 : Int), width.fdiv 32, (1 : Int)) :=
    if_neg (fun hc => absurd hc.1.1 Bool.false_ne_true)
  have hyT : (if overlapVRows false srcY dstY height ∧ srcY < dstY
      then (height - 1, -1, -1) else ((0 : Int), height, (1 : Int)))
      = ((0 : Int), height, (1 : Int)) :=
    if_neg (fun hc => absurd hc.1.1 Bool.false_ne_true)
  have hf1 : loopIdx ((0 : Int), width.fdiv 32, (1 : Int)) = intRange (width.fdiv 32) := rfl
  have hf2 : loopIdx ((0 : Int), height, (1 : Int)) = intRange height := rfl
  rw [hyT, hf2]
  simp only [hiT, hf1]

set_option maxRecDepth 8192 in
/-- C6 counterexample: on the claim's own showcase — the overlapping in-place
aligned shift of a 96-pixel-wide region right by one word — `jitBitBltAligned`
reverses the word loop and performs a true shift, while the naive reference
`bitblt` iterates forward and smears the first word; the two final
destinations differ. -/
theorem spec_C6_counterexample :
    (jitBitBltAligned true ⟨128, 1, 4, [1, 2, 3, 4]⟩ 32 0 96 1
        ⟨128, 1, 4, [1, 2, 3, 4]⟩ 0 0 BitBltOp.COPY).2
      ≠ (bitblt true ⟨128, 1, 4, [1, 2, 3, 4]⟩ 32 0 96 1
        ⟨128, 1, 4, [1, 2, 3, 4]⟩ 0 0 BitBltOp.COPY).2 := by
  decide

/-- C6 (amended): for `width`, `srcX` and `dstX` all multiples of 32 and an
in-bounds rectangle on well-formed bitmaps, `bitbltAligned` agrees
bit-for-bit with the naive reference `bitblt` — including the aliased
(`src === dst`) case, so in particular on the overlapping in-place aligned
shift, where both smear rather than shift; and `jitBitBltAligned` agrees with
the reference on every such transfer between distinct bitmaps (with
nonnegative sizes, so its generated loops terminate), which covers the
claim's non-overlapping showcase of a 32-wide block copied from `x = 0` to
`x = 32`.  The claim's further assertion that `jitBitBltAligned` also agrees
on the overlapping in-place shift is refuted by `spec_C6_counterexample`:
there the JIT's reversed word loop computes the true shift while the
reference smears. -/
theorem spec_C6 :
    (∀ (same : Bool) (dst src : Bitmap), dst.WF → src.WF → (same = true → src = dst) →
      ∀ (dstX dstY width height srcX srcY op : Int),
        dstX.tmod 32 = 0 → srcX.tmod 32 = 0 → width.tmod 32 = 0 →
        0 ≤ dstX → dstX + width ≤ dst.width → 0 ≤ dstY → dstY + height ≤ dst.height →
        0 ≤ srcX → srcX + width ≤ src.width → 0 ≤ srcY → srcY + height ≤ src.height →
        bitbltAligned same dst dstX dstY width height src srcX srcY op
          = bitblt same dst dstX dstY width height src srcX srcY op)
    ∧ (∀ (dst src : Bitmap), dst.WF → src.WF →
      ∀ (dstX dstY width height srcX srcY op : Int),
        dstX.tmod 32 = 0 → srcX.tmod 32 = 0 → width.tmod 32 = 0 →
        0 ≤ width → 0 ≤ height →
        0 ≤ dstX → dstX + width ≤ dst.width → 0 ≤ dstY → dstY + height ≤ dst.height →
        0 ≤ srcX → srcX + width ≤ src.width → 0 ≤ srcY → srcY + height ≤ src.height →
        jitBitBltAligned false dst dstX dstY width height src srcX srcY op
          = bitblt false dst dstX dstY width height src srcX srcY op) := by
  constructor
  · intro same dst src hd hs hsame dstX dstY width height srcX srcY op
      h1 h2 h3 h4 h5 h6 h7 h8 h9 h10 h11
    exact bitbltAligned_eq_naive hd hs hsame op ⟨h1, h2, h3⟩ h4 h5 h6 h7 h8 h9 h10 h11
  · intro dst src hd hs dstX dstY width height srcX srcY op
      h1 h2 h3 hw0 hh0 h4 h5 h6 h7 h8 h9 h10 h11
    exact (jitBitBltAligned_false_eq ⟨h1, h2, h3⟩).trans
      (bitbltAligned_eq_naive hd hs (fun hc => absurd hc Bool.false_ne_true) op
        ⟨h1, h2, h3⟩ h4 h5 h6 h7 h8 h9 h10 h11)

set_option maxRecDepth 8192 in
/-- Witness for C6: the amended equivalence applied to the concrete
overlapping in-place aligned shift (a 128×1 bitmap shifted right by one
word) and to the claim's non-overlapping showcase (a 32-wide block copied
from `x = 0` to `x = 32` between distinct bitmaps), with every hypothesis
discharged by computation. -/
theorem spec_C6_witness :
    (bitbltAligned true ⟨128, 1, 4, [1, 2, 3, 4]⟩ 32 0 96 1
        ⟨128, 1, 4, [1, 2, 3, 4]⟩ 0 0 BitBltOp.COPY
      = bitblt true ⟨128, 1, 4, [1, 2, 3, 4]⟩ 32 0 96 1
        ⟨128, 1, 4, [1, 2, 3, 4]⟩ 0 0 BitBltOp.COPY) ∧
    (jitBitBltAligned false ⟨64, 1, 2, [0, 0]⟩ 32 0 32 1
        ⟨64, 1, 2, [0xDEADBEEF, 0]⟩ 0 0 BitBltOp.COPY
      = bitblt false ⟨64, 1, 2, [0, 0]⟩ 32 0 32 1
        ⟨64, 1, 2, [0xDEADBEEF, 0]⟩ 0 0 BitBltOp.COPY) :=
  ⟨spec_C6.1 true ⟨128, 1, 4, [1, 2, 3, 4]⟩ ⟨128, 1, 4, [1, 2, 3, 4]⟩
    (by decide) (by decide) (fun _ => rfl) 32 0 96 1 0 0 BitBltOp.COPY
    (by decide) (by decide) (by decide) (by decide) (by decide) (by decide)
    (by decide) (by decide) (by decide) (by decide) (by decide),
  spec_C6.2 ⟨64, 1, 2, [0, 0]⟩ ⟨64, 1, 2, [0xDEADBEEF, 0]⟩
    (by decide) (by decide) 32 0 32 1 0 0 BitBltOp.COPY
    (by decide) (by decide) (by decide) (by decide) (by decide) (by decide)
    (by decide) (by decide) (by decide) (by decide) (by decide) (by decide)
    (by decide)⟩
